import Mathlib

/-!
# bitcoind.js: lifecycle coordinator and poll loops

Shallow embedding of `lib/bitcoind.js`.

* Part I embeds the closure state of `Bitcoin.prototype.start` (the variables
  `exitCaught`, `errorCaught`, the fields `_shutdown`, `_stoppingSaid`), the three
  interceptors installed by the engine start callback and the watchdog interval
  callback.  Calls that leave the module (`self._exit`, `self.stop`, `console.error`,
  `process.kill`, ...) are appended to an action log.
* Part II embeds `utils.forEach`, `_pollBlocks`, `_pollMempool` and the
  `newListener` handler over an explicit event-loop state: a heap of `pending`
  counters (one per `utils.forEach` activation), the `setImmediate` queue and the
  list of `setTimeout` calls.  The seen-set `self._emitted` is a plain object, so a
  read of it also finds the property names inherited from `Object.prototype`; the
  public field `pollInterval` may be reassigned by the host at any time.
-/

namespace Bitcoind

/-! ## Part I: lifecycle coordinator (`Bitcoin.prototype.start`) -/

/-- The three intercepted signals: the objects `sigint`, `sighup`, `sigquit`. -/
inductive Signal
  | SIGINT
  | SIGHUP
  | SIGQUIT
  deriving DecidableEq, Repr

/-- Value of the closure variable `exitCaught`: the sentinel `none`, one of the
signal objects, or a number written by the `process.exit` override. -/
inductive ExitCaught
  | none
  | signal (sig : Signal)
  | code (c : Int)
  deriving DecidableEq, Repr

/-- A thrown JavaScript value as far as the module looks at it: `stack` is
`some st` when `err && err.stack` is truthy and `none` otherwise. -/
structure JSError where
  stack : Option String
  deriving DecidableEq, Repr

/-- Calls that leave the module, in the order they are made. -/
inductive Action
  /-- The call `self._exit(code)`, the saved real `process.exit`; `none` is `undefined`. -/
  | exit (code : Option Int)
  /-- The call `self.stop()`, which calls `bitcoindjs.stop`. -/
  | stop
  /-- The call `self.log(msg)`. -/
  | log (msg : String)
  /-- The call `console.error(stack)`. -/
  | consoleError (stack : String)
  /-- The call `clearInterval(self._shutdown)`. -/
  | clearInterval
  /-- The call `process.removeListener(name, listener)`. -/
  | removeListener (sig : Signal)
  /-- The call `setImmediate(function() { process.kill(process.pid, name) })`. -/
  | kill (sig : Signal)
  deriving DecidableEq, Repr

/-- State shared by the interceptors and the watchdog.  `_shutdown` is `true`
while the field `self._shutdown` holds the interval handle and `false` after
`delete self._shutdown`; `exited` records that the real exit primitive ran. -/
structure Lifecycle where
  _shutdown : Bool
  _stoppingSaid : Bool
  exitCaught : ExitCaught
  errorCaught : Option JSError
  actions : List Action
  exited : Bool
  deriving DecidableEq, Repr

/-- Appends one outgoing call to the log. -/
def Lifecycle.act (s : Lifecycle) (a : Action) : Lifecycle :=
  { s with actions := s.actions ++ [a] }

/-- The function `self._exit` (lines 58-61): applies the saved real `process.exit`. -/
def _exit (s : Lifecycle) (code : Option Int) : Lifecycle :=
  { s.act (Action.exit code) with exited := true }

/-- The method `Bitcoin.prototype.stop` (lines 269-281) as seen from the coordinator. -/
def stop (s : Lifecycle) : Lifecycle :=
  s.act Action.stop

/-- The replacement of `process.exit` (lines 63-69). `code || 0` is `code.getD 0`. -/
def processExit (s : Lifecycle) (code : Option Int) : Lifecycle :=
  let s1 := { s with exitCaught := ExitCaught.code (code.getD 0) }
  if !s1._shutdown then _exit s1 code else stop s1

/-- The listener registered for each of the three signals (lines 45-55).
`listeners` is `process.listeners(signal.name).length` at delivery; the call
`process.exit(0)` reaches the replacement installed at line 63. -/
def signalListener (s : Lifecycle) (sig : Signal) (listeners : Nat) : Lifecycle :=
  if listeners > 1 then s
  else if !s._shutdown then processExit s (some 0)
  else { stop s with exitCaught := ExitCaught.signal sig }

/-- The `uncaughtException` listener (lines 71-84). -/
def uncaughtException (s : Lifecycle) (err : JSError) (listeners : Nat) : Lifecycle :=
  if listeners > 1 then s
  else
    let s1 := { s with errorCaught := some err }
    if !s1._shutdown then
      let s2 := match err.stack with
        | some st => s1.act (Action.consoleError st)
        | none => s1
      _exit s2 (some 1)
    else stop s1

/-- The interval callback (lines 100-130). `stopping` and `stopped` are the values
returned by `bitcoindjs.stopping()` and `bitcoindjs.stopped()` at this tick. -/
def watchdog (s : Lifecycle) (stopping stopped : Bool) : Lifecycle :=
  let s1 := if !s._stoppingSaid && stopping
    then { s with _stoppingSaid := true }.act (Action.log "shutting down...")
    else s
  if stopped then
    let s2 := { (s1.act (Action.log "shut down.")).act Action.clearInterval with _shutdown := false }
    match s2.exitCaught with
    | ExitCaught.signal sig => (s2.act (Action.removeListener sig)).act (Action.kill sig)
    | ExitCaught.code c => _exit s2 (some c)
    | ExitCaught.none =>
      match s2.errorCaught with
      | some err =>
        let s3 := match err.stack with
          | some st => s2.act (Action.consoleError st)
          | none => s2
        _exit s3 (some 0)
      | none => s2
  else s1

/-- A termination trigger reaching one of the interceptors. -/
inductive Trigger
  | signal (sig : Signal) (listeners : Nat)
  | exit (code : Option Int)
  | uncaught (err : JSError) (listeners : Nat)
  deriving DecidableEq, Repr

/-- Something the event loop delivers to the coordinator. -/
inductive LEvent
  | trigger (t : Trigger)
  | tick (stopping stopped : Bool)
  deriving DecidableEq, Repr

/-- Dispatch of a trigger to its interceptor. -/
def deliver (s : Lifecycle) : Trigger → Lifecycle
  | Trigger.signal sig n => signalListener s sig n
  | Trigger.exit code => processExit s code
  | Trigger.uncaught err n => uncaughtException s err n

/-- One event-loop turn.  Nothing runs once the real exit primitive has run, and
the interval callback only runs while the interval is installed. -/
def lstep (s : Lifecycle) : LEvent → Lifecycle
  | LEvent.trigger t => if s.exited then s else deliver s t
  | LEvent.tick stopping stopped =>
    if s.exited || !s._shutdown then s else watchdog s stopping stopped

/-- A run of the coordinator. -/
def lrun (s : Lifecycle) (es : List LEvent) : Lifecycle :=
  es.foldl lstep s

/-- The state once `start()` has returned and the engine start callback has
installed the interceptors: the interval is installed and nothing is recorded. -/
def started : Lifecycle :=
  { _shutdown := true, _stoppingSaid := false, exitCaught := ExitCaught.none,
    errorCaught := none, actions := [], exited := false }

/-- The calls that end the process: the real exit primitive and the re-raised signal. -/
def Action.isFinal : Action → Bool
  | Action.exit _ => true
  | Action.kill _ => true
  | _ => false

/-- The final actions among a list of outgoing calls. -/
def finals (as : List Action) : List Action :=
  as.filter Action.isFinal

/-- A trigger its interceptor acts on: an explicit `process.exit` call, or a signal
or uncaught failure delivered while no other listener is registered. -/
def Trigger.handled : Trigger → Bool
  | Trigger.signal _ n => decide (n ≤ 1)
  | Trigger.exit _ => true
  | Trigger.uncaught _ n => decide (n ≤ 1)

/-- What a trigger writes to `exitCaught`, if anything, while the interval is installed. -/
def Trigger.exitIntent : Trigger → Option ExitCaught
  | Trigger.signal sig n => if n ≤ 1 then some (ExitCaught.signal sig) else none
  | Trigger.exit code => some (ExitCaught.code (code.getD 0))
  | Trigger.uncaught _ _ => none

/-- What a trigger writes to `errorCaught`, if anything. -/
def Trigger.failure : Trigger → Option JSError
  | Trigger.uncaught err n => if n ≤ 1 then some err else none
  | _ => none

/-- The final action the watchdog decision (lines 112-128) takes for given values of
`exitCaught` and `errorCaught`. -/
def decision : ExitCaught → Option JSError → List Action
  | ExitCaught.signal sig, _ => [Action.kill sig]
  | ExitCaught.code c, _ => [Action.exit (some c)]
  | ExitCaught.none, some _ => [Action.exit (some 0)]
  | ExitCaught.none, none => []

/-- The triggers among the delivered events, in order of delivery. -/
def triggersOf (es : List LEvent) : List Trigger :=
  es.filterMap (fun e => match e with
    | LEvent.trigger t => some t
    | LEvent.tick _ _ => none)

/-- The value of `exitCaught` that the last handled signal or `process.exit` trigger
of `ts` writes, or `init` when there is none. -/
def lastExitIntent (init : ExitCaught) (ts : List Trigger) : ExitCaught :=
  ((ts.filterMap Trigger.exitIntent).getLast?).getD init

/-- The value of `errorCaught` that the last handled uncaught failure of `ts` writes,
or `init` when there is none. -/
def lastFailure (init : Option JSError) (ts : List Trigger) : Option JSError :=
  match (ts.filterMap Trigger.failure).getLast? with
  | some err => some err
  | none => init

/-- The outgoing calls of an interceptor that terminates the process inside the
handler call (lines 50, 66, 77-80). -/
def Trigger.immediate : Trigger → List Action
  | Trigger.signal _ _ => [Action.exit (some 0)]
  | Trigger.exit code => [Action.exit code]
  | Trigger.uncaught err _ =>
    (match err.stack with
      | some st => [Action.consoleError st]
      | none => []) ++ [Action.exit (some 1)]

/-! ## Part II: poll loops (`utils.forEach`, `_pollBlocks`, `_pollMempool`) -/

/-- An item identifier: the string the engine reports in `hash`, used as a property
name of the plain object `self._emitted`. -/
abbrev Hash := String

/-- The property names a plain object inherits from `Object.prototype`.  Each of them
has a truthy value: a function, and for `__proto__` the prototype object itself. -/
def inheritedKeys : List String :=
  ["constructor", "__defineGetter__", "__defineSetter__", "hasOwnProperty",
   "__lookupGetter__", "__lookupSetter__", "isPrototypeOf", "propertyIsEnumerable",
   "toString", "valueOf", "__proto__", "toLocaleString"]

/-- Truthiness of the read `self._emitted[h]` (lines 174, 209) on the plain object
created by `this._emitted = {}` (line 134), `stored` being the keys the module has set
to `true`: the key was stored, or it is inherited from `Object.prototype`. -/
def hasKey (stored : List Hash) (h : Hash) : Bool :=
  decide (h ∈ stored) || decide (h ∈ inheritedKeys)

/-- A transaction as the poll loops use it: only `tx.hash` is read. -/
structure Tx where
  hash : Hash
  deriving DecidableEq, Repr

/-- A block as the poll loops use it: `block.hash` and the array `block.tx`. -/
structure Block where
  hash : Hash
  tx : List Tx
  deriving DecidableEq, Repr

/-- A call `self.emit(name, payload)` made by a poll loop. -/
inductive Emitted
  | block (b : Block)
  | tx (t : Tx)
  | mptx (t : Tx)
  deriving DecidableEq, Repr

/-- The two poll loops: the closure `next` of `_pollBlocks` and of `_pollMempool`. -/
inductive Loop
  | blocks
  | mempool
  deriving DecidableEq, Repr

/-- The `done` argument of a `utils.forEach` call.  `reschedule l` is
`function() { return setTimeout(next, self.pollInterval) }` of loop `l`;
`signal c` is `function() { return setImmediate(function() { return nextBlock() }) }`
where `nextBlock` is the `next` closure of the enclosing activation `c`. -/
inductive Done
  | reschedule (l : Loop)
  | signal (c : Nat)
  deriving DecidableEq, Repr

/-- The local state of one `utils.forEach` activation: its `pending` variable and
its `done` argument. -/
structure Counter where
  pending : Int
  done : Done
  deriving DecidableEq, Repr

/-- State of a started instance as far as the poll loops touch it.
`_emitted` lists the keys set to `true`; `events` is the log of `emit` calls;
`counters` holds the live `utils.forEach` activations, `immediates` the queue of
`setImmediate` callbacks (each one calls the `next` closure of an activation),
`timers` the pending `setTimeout(next, delay)` calls; `calls` logs every poll call
made to the engine and `inflight` the ones not answered yet. -/
structure Node where
  _emitted : List Hash
  _pollingBlocks : Bool
  _pollingMempool : Bool
  pollInterval : Nat
  events : List Emitted
  counters : List Counter
  immediates : List Nat
  timers : List (Nat × Loop)
  calls : List Loop
  inflight : List Loop
  deriving DecidableEq, Repr

/-- The call `self.emit(name, payload)`. -/
def emit (s : Node) (e : Emitted) : Node :=
  { s with events := s.events ++ [e] }

/-- The call `setImmediate(function() { return next() })` for the `next` closure of
activation `c`. -/
def setImmediate (s : Node) (c : Nat) : Node :=
  { s with immediates := s.immediates ++ [c] }

/-- The call `setTimeout(next, self.pollInterval)` for loop `l`. -/
def setTimeout (s : Node) (l : Loop) : Node :=
  { s with timers := s.timers ++ [(s.pollInterval, l)] }

/-- Invocation of a `done` callback. -/
def runDone (s : Node) : Done → Node
  | Done.reschedule l => setTimeout s l
  | Done.signal c => setImmediate s c

/-- The closure `next` of `utils.forEach` (lines 380-382) for activation `c`:
`if (!--pending) done()`. -/
def next (s : Node) (c : Nat) : Node :=
  match s.counters[c]? with
  | none => s
  | some k =>
    let s1 := { s with counters := s.counters.set c { k with pending := k.pending - 1 } }
    if k.pending - 1 = 0 then runDone s1 k.done else s1

/-- The function `utils.forEach` (lines 377-386).  The iterator receives the
identity of the activation whose `next` closure it is handed. -/
def forEach {α : Type} (s : Node) (obj : List α) (iter : Node → α → Nat → Node)
    (done : Done) : Node :=
  if obj.length = 0 then runDone s done
  else
    let c := s.counters.length
    let s1 := { s with counters := s.counters ++ [{ pending := obj.length, done := done }] }
    obj.foldl (fun acc item => iter acc item c) s1

/-- Iterator over `block.tx` (lines 183-187). -/
def txIter (s : Node) (tx : Tx) (nextTx : Nat) : Node :=
  setImmediate (emit s (Emitted.tx tx)) nextTx

/-- Iterator over the polled blocks (lines 172-192). -/
def blockIter (s : Node) (block : Block) (nextBlock : Nat) : Node :=
  if hasKey s._emitted block.hash then setImmediate s nextBlock
  else
    let s1 := { s with _emitted := block.hash :: s._emitted }
    let s2 := emit s1 (Emitted.block block)
    forEach s2 block.tx txIter (Done.signal nextBlock)

/-- Iterator over the polled mempool transactions (lines 207-221). -/
def mempoolIter (s : Node) (tx : Tx) (nextTx : Nat) : Node :=
  if hasKey s._emitted tx.hash then setImmediate s nextTx
  else
    let s1 := { s with _emitted := tx.hash :: s._emitted }
    let s2 := emit s1 (Emitted.mptx tx)
    let s3 := emit s2 (Emitted.tx tx)
    setImmediate s3 nextTx

/-- The callback handed to `bitcoindjs.pollBlocks` (lines 170-196); `Except.error`
stands for a truthy `err`. -/
def pollBlocksCallback (s : Node) : Except String (List Block) → Node
  | Except.error _ => setTimeout s Loop.blocks
  | Except.ok blocks => forEach s blocks blockIter (Done.reschedule Loop.blocks)

/-- The callback handed to `bitcoindjs.pollMempool` (lines 205-225). -/
def pollMempoolCallback (s : Node) : Except String (List Tx) → Node
  | Except.error _ => setTimeout s Loop.mempool
  | Except.ok txs => forEach s txs mempoolIter (Done.reschedule Loop.mempool)

/-- The closure `next` of a poll loop (lines 169-170, 204-205): one poll call to
the engine, answered later through the callback. -/
def pollNext (s : Node) (l : Loop) : Node :=
  { s with calls := s.calls ++ [l], inflight := s.inflight ++ [l] }

/-- The method `Bitcoin.prototype._pollBlocks` (lines 165-198). -/
def _pollBlocks (s : Node) : Node :=
  if s._pollingBlocks then s
  else pollNext { s with _pollingBlocks := true } Loop.blocks

/-- The method `Bitcoin.prototype._pollMempool` (lines 200-227). -/
def _pollMempool (s : Node) : Node :=
  if s._pollingMempool then s
  else pollNext { s with _pollingMempool := true } Loop.mempool

/-- The `newListener` handler (lines 136-150). -/
def newListener (s : Node) (name : String) : Node :=
  if name = "block" then _pollBlocks s
  else if name = "tx" then _pollMempool (_pollBlocks s)
  else if name = "mptx" then _pollMempool s
  else s

/-- The poll-loop state set up by `start()` (lines 132-134): `pollInterval = 300`,
`_emitted = {}`, no loop running. -/
def start : Node :=
  { _emitted := [], _pollingBlocks := false, _pollingMempool := false, pollInterval := 300,
    events := [], counters := [], immediates := [], timers := [], calls := [], inflight := [] }

/-- A successful poll batch delivered to its callback. -/
inductive Batch
  | blocks (bs : List Block)
  | mempool (txs : List Tx)
  deriving DecidableEq, Repr

/-- Handling of one successful batch by the callback of its loop. -/
def handle (s : Node) : Batch → Node
  | Batch.blocks bs => pollBlocksCallback s (Except.ok bs)
  | Batch.mempool txs => pollMempoolCallback s (Except.ok txs)

/-- Handling of a sequence of successful batches, in order of arrival. -/
def handleAll (s : Node) (batches : List Batch) : Node :=
  batches.foldl handle s

/-- Something the event loop delivers to the poll loops. -/
inductive Step
  /-- A subscription `self.on(name, listener)`, which fires `newListener`. -/
  | subscribe (name : String)
  /-- The engine answers the pending `pollBlocks` call. -/
  | blocksPolled (r : Except String (List Block))
  /-- The engine answers the pending `pollMempool` call. -/
  | mempoolPolled (r : Except String (List Tx))
  /-- The oldest `setImmediate` callback runs. -/
  | immediate
  /-- The oldest pending timer of loop `l` fires and calls `next`. -/
  | timeout (l : Loop)
  /-- The host assigns the public field: `node.pollInterval = n`. -/
  | assign (n : Nat)

/-- Removes the first pending timer of loop `l`. -/
def dropTimer (l : Loop) : List (Nat × Loop) → List (Nat × Loop)
  | [] => []
  | t :: ts => if t.2 = l then ts else t :: dropTimer l ts

/-- One event-loop turn of the poll loops.  A poll callback only runs for a call
that is awaiting its answer, and a timer only fires if it is pending. -/
def step (s : Node) : Step → Node
  | Step.subscribe name => newListener s name
  | Step.blocksPolled r =>
    if Loop.blocks ∈ s.inflight
    then pollBlocksCallback { s with inflight := s.inflight.erase Loop.blocks } r
    else s
  | Step.mempoolPolled r =>
    if Loop.mempool ∈ s.inflight
    then pollMempoolCallback { s with inflight := s.inflight.erase Loop.mempool } r
    else s
  | Step.immediate =>
    match s.immediates with
    | [] => s
    | c :: rest => next { s with immediates := rest } c
  | Step.timeout l =>
    if (s.timers.filter (fun t => t.2 = l)) ≠ []
    then pollNext { s with timers := dropTimer l s.timers } l
    else s
  | Step.assign n => { s with pollInterval := n }

/-- A run of the poll loops. -/
def run (s : Node) (steps : List Step) : Node :=
  steps.foldl step s

/-- Runs the `setImmediate` queue for `n` turns. -/
def drain (n : Nat) (s : Node) : Node :=
  run s (List.replicate n Step.immediate)

/-! ## Part II: specification-side definitions -/

/-- The events one not-yet-seen block contributes: its `block` event followed by a
`tx` event for each contained transaction, in container order. -/
def blockEvents (b : Block) : List Emitted :=
  Emitted.block b :: b.tx.map Emitted.tx

/-- The payloads of the `block` events of an event log, in order. -/
def blockEventsOf (evs : List Emitted) : List Block :=
  evs.filterMap (fun e => match e with
    | Emitted.block b => some b
    | _ => none)

/-- The payloads of the `mptx` events of an event log, in order. -/
def mptxEventsOf (evs : List Emitted) : List Tx :=
  evs.filterMap (fun e => match e with
    | Emitted.mptx t => some t
    | _ => none)

/-- The blocks of the concatenated block batches. -/
def blocksOf (batches : List Batch) : List Block :=
  batches.flatMap (fun b => match b with
    | Batch.blocks bs => bs
    | Batch.mempool _ => [])

/-- The transactions of the concatenated mempool batches. -/
def mempoolOf (batches : List Batch) : List Tx :=
  batches.flatMap (fun b => match b with
    | Batch.blocks _ => []
    | Batch.mempool txs => txs)

/-- The list `xs` with every item removed whose key occurs at an earlier position. -/
def removeSeenEarlier {α : Type} (key : α → Hash) (xs : List α) : List α :=
  (List.range xs.length).filterMap (fun i =>
    match xs[i]? with
    | some x => if key x ∈ (xs.take i).map key then none else some x
    | none => none)

/-- The events appended to the log while `batches` are handled from state `s`. -/
def newEvents (s : Node) (batches : List Batch) : List Emitted :=
  (handleAll s batches).events.drop s.events.length

/-- The part of the state the emission logic reads and writes: the seen-set and the
event log. -/
def view (s : Node) : List Hash × List Emitted :=
  (s._emitted, s.events)

/-- Effect of `blockIter` on the seen-set and the event log. -/
def viewBlock (v : List Hash × List Emitted) (b : Block) : List Hash × List Emitted :=
  if hasKey v.1 b.hash then v else (b.hash :: v.1, v.2 ++ blockEvents b)

/-- Effect of `mempoolIter` on the seen-set and the event log. -/
def viewTx (v : List Hash × List Emitted) (t : Tx) : List Hash × List Emitted :=
  if hasKey v.1 t.hash then v else (t.hash :: v.1, v.2 ++ [Emitted.mptx t, Emitted.tx t])

/-- An event that does not re-announce an identifier of `seen`: a `block` or `mptx`
event carries a hash outside `seen`; a `tx` event is not constrained. -/
def Emitted.unseen (seen : List Hash) : Emitted → Prop
  | Emitted.block b => b.hash ∉ seen
  | Emitted.mptx t => t.hash ∉ seen
  | Emitted.tx _ => True

/-! ## Part II: bookkeeping of the event loop -/

/-- The value of the `pending` variable of activation `i`, and `0` when there is no
such activation. -/
def pend (s : Node) (i : Nat) : Int :=
  match s.counters[i]? with
  | some k => k.pending
  | none => 0

/-- An activation that has not run its `done` yet and whose `done` will signal
activation `c`. -/
def Counter.signals (k : Counter) (c : Nat) : Bool :=
  decide (k.done = Done.signal c) && decide (0 < k.pending)

/-- An activation that has not run its `done` yet and whose `done` will schedule the
next poll of loop `l`. -/
def Counter.reschedules (k : Counter) (l : Loop) : Bool :=
  decide (k.done = Done.reschedule l) && decide (0 < k.pending)

/-- An activation that has not run its `done` yet and whose `done` signals some other
activation. -/
def Counter.nested (k : Counter) : Bool :=
  (match k.done with
    | Done.signal _ => true
    | Done.reschedule _ => false) && decide (0 < k.pending)

/-- The number of `next` calls activation `i` can still expect: one per queued
`setImmediate` callback for it, one per unfinished nested activation below it. -/
def credit (s : Node) (i : Nat) : Int :=
  (s.immediates.count i : Int) + (s.counters.countP (fun k => k.signals i) : Int)

/-- The `next` calls activation `i` waits for beyond the ones it can expect. -/
def deficit (s : Node) (i : Nat) : Int :=
  pend s i - credit s i

/-- The number of batches of loop `l` still being processed. -/
def outstanding (s : Node) (l : Loop) : Nat :=
  s.counters.countP (fun k => k.reschedules l)

/-- The pending timers of loop `l`. -/
def timersOf (s : Node) (l : Loop) : List (Nat × Loop) :=
  s.timers.filter (fun t => decide (t.2 = l))

/-- Batches of loop `l` in progress plus pending timers of loop `l`. -/
def scheduled (s : Node) (l : Loop) : Nat :=
  outstanding s l + (timersOf s l).length

/-- The flag `_pollingBlocks` or `_pollingMempool` of loop `l`. -/
def polling (s : Node) : Loop → Bool
  | Loop.blocks => s._pollingBlocks
  | Loop.mempool => s._pollingMempool

/-- Every nested activation signals an activation created before it. -/
def Ordered (s : Node) : Prop :=
  ∀ i k c, s.counters[i]? = some k → k.done = Done.signal c → c < i

/-- A bound on the number of `setImmediate` callbacks still to run. -/
def workLeft (s : Node) : Nat :=
  s.immediates.length + s.counters.countP Counter.nested

/-- The invariant of the poll loops: every activation waits for exactly the `next`
calls that are on their way; nested activations point backwards; per loop, exactly one
of poll call in flight, batch in progress, pending timer exists once the loop is
active and none before. -/
structure Inv (s : Node) : Prop where
  balanced : ∀ i, deficit s i = 0
  ordered : Ordered s
  single : ∀ l, s.inflight.count l + scheduled s l = if polling s l then 1 else 0

/-- What code run by a poll callback or by a `setImmediate` callback leaves alone:
existing activations keep their place and their `done`, the poll calls in flight, the
loop flags and the interval are untouched, and a new timer carries the interval. -/
def Frame (s s2 : Node) : Prop :=
  s.counters.length ≤ s2.counters.length ∧
  s2.inflight = s.inflight ∧
  s2._pollingBlocks = s._pollingBlocks ∧
  s2._pollingMempool = s._pollingMempool ∧
  s2.pollInterval = s.pollInterval ∧
  (∀ t ∈ s2.timers, t ∈ s.timers ∨ t.1 = s.pollInterval) ∧
  (∀ (i : Nat) (k : Counter), s.counters[i]? = some k →
    ∃ k2 : Counter, s2.counters[i]? = some k2 ∧ k2.done = k.done)

/-- The effect on the bookkeeping of a piece of code that ends up invoking the `done`
callback `d` exactly once, now or through the event loop, and that creates activations
but does not call `next`. -/
def Eff (s s2 : Node) (d : Done) : Prop :=
  (∀ i, deficit s2 i = deficit s i - (if d = Done.signal i then 1 else 0)) ∧
  (∀ l, scheduled s2 l = scheduled s l + (if d = Done.reschedule l then 1 else 0)) ∧
  (Ordered s → (∀ c, d = Done.signal c → c < s.counters.length) → Ordered s2) ∧
  Frame s s2 ∧
  s.counters <+: s2.counters

/-- The loop whose poll call a step answers, if any. -/
def Step.answers : Step → Option Loop
  | Step.blocksPolled _ => some Loop.blocks
  | Step.mempoolPolled _ => some Loop.mempool
  | _ => none

/-- Whether a step is a poll answer with a truthy `err`. -/
def Step.failed : Step → Bool
  | Step.blocksPolled (Except.error _) => true
  | Step.mempoolPolled (Except.error _) => true
  | _ => false

/-- The number of items of the batch a step delivers. -/
def Step.batchSize : Step → Nat
  | Step.blocksPolled (Except.ok bs) => bs.length
  | Step.mempoolPolled (Except.ok ts) => ts.length
  | _ => 0

/-- What every step leaves alone: existing activations keep their place and their
`done`, and the event log and the seen-set only grow. -/
def Grows (s s2 : Node) : Prop :=
  (∀ (i : Nat) (k : Counter), s.counters[i]? = some k →
    ∃ k2 : Counter, s2.counters[i]? = some k2 ∧ k2.done = k.done) ∧
  s.events <+: s2.events

/-- The state right after the step `st` is delivered at the end of the run `pre` of a
started instance. -/
def answered (pre : List Step) (st : Step) : Node :=
  step (run start pre) st

/-- The items of a batch its iterator does not skip: the items whose key does not
occur earlier in the batch and for which the read `self._emitted[key]` is falsy when
the batch arrives, `stored` being the keys stored by then. -/
def fresh {α : Type} (key : α → Hash) (stored : List Hash) (xs : List α) : List α :=
  (removeSeenEarlier key xs).filter (fun x => !hasKey stored (key x))

/-- The events a poll answer has to emit, given the keys stored when it arrives: for
a block batch, `block` and the contained `tx` events of every block not skipped; for a
mempool batch, `mptx` and `tx` of every transaction not skipped; nothing on error. -/
def Step.emits (stored : List Hash) : Step → List Emitted
  | Step.blocksPolled (Except.ok bs) => (fresh Block.hash stored bs).flatMap blockEvents
  | Step.mempoolPolled (Except.ok ts) =>
    (fresh Tx.hash stored ts).flatMap (fun t => [Emitted.mptx t, Emitted.tx t])
  | _ => []

/-! # Theorems -/

/-! ## Lifecycle coordinator: auxiliary facts -/

theorem finals_append (as bs : List Action) : finals (as ++ bs) = finals as ++ finals bs := by
  simp [finals]

theorem deliver_installed (s : Lifecycle) (t : Trigger) (h : s._shutdown = true) :
    (deliver s t)._shutdown = true ∧ (deliver s t).exited = s.exited ∧
    (deliver s t)._stoppingSaid = s._stoppingSaid ∧
    (deliver s t).actions = s.actions ++ (if t.handled then [Action.stop] else []) ∧
    (deliver s t).exitCaught = (t.exitIntent).getD s.exitCaught ∧
    (deliver s t).errorCaught = lastFailure s.errorCaught [t] := by
  cases t with
  | signal sig n =>
    by_cases hn : n ≤ 1
    · have hn2 : ¬ n > 1 := by omega
      simp [deliver, signalListener, h, hn, hn2, stop, Lifecycle.act, Trigger.handled,
        Trigger.exitIntent, lastFailure, Trigger.failure]
    · have hn2 : n > 1 := by omega
      simp [deliver, signalListener, h, hn, hn2, Trigger.handled, Trigger.exitIntent,
        lastFailure, Trigger.failure]
  | exit code =>
    simp [deliver, processExit, h, stop, Lifecycle.act, Trigger.handled, Trigger.exitIntent,
      lastFailure, Trigger.failure]
  | uncaught err n =>
    by_cases hn : n ≤ 1
    · have hn2 : ¬ n > 1 := by omega
      simp [deliver, uncaughtException, h, hn, hn2, stop, Lifecycle.act, Trigger.handled,
        Trigger.exitIntent, lastFailure, Trigger.failure]
    · have hn2 : n > 1 := by omega
      simp [deliver, uncaughtException, h, hn, hn2, Trigger.handled, Trigger.exitIntent,
        lastFailure, Trigger.failure]

theorem watchdog_running (s : Lifecycle) (stopping : Bool) :
    (watchdog s stopping false)._shutdown = s._shutdown ∧
    (watchdog s stopping false).exited = s.exited ∧
    (watchdog s stopping false).exitCaught = s.exitCaught ∧
    (watchdog s stopping false).errorCaught = s.errorCaught ∧
    finals (watchdog s stopping false).actions = finals s.actions := by
  unfold watchdog
  by_cases hc : (!s._stoppingSaid && stopping) = true
  · simp [hc, Lifecycle.act, finals, Action.isFinal]
  · simp [hc]

theorem watchdog_stopped (s : Lifecycle) (stopping : Bool) :
    (watchdog s stopping true)._shutdown = false ∧
    Action.clearInterval ∈ (watchdog s stopping true).actions ∧
    finals (watchdog s stopping true).actions
      = finals s.actions ++ decision s.exitCaught s.errorCaught := by
  unfold watchdog
  rcases s with ⟨sh, said, ec, err, acts, ex⟩
  cases ec <;> cases err <;> by_cases hc : (!said && stopping) = true <;>
    simp [hc, Lifecycle.act, finals, Action.isFinal, decision, _exit] <;>
    (try split) <;> simp [Lifecycle.act, finals, Action.isFinal]

/-- While the interval is installed and no tick observes the engine as stopped, the
interval stays installed, the real exit primitive is not reached, no final action is
logged, and the two closure variables hold what the last handled triggers wrote. -/
theorem lrun_installed (es : List LEvent) (s : Lifecycle)
    (hs : s._shutdown = true) (hx : s.exited = false)
    (hes : ∀ e ∈ es, ∀ b, e ≠ LEvent.tick b true) :
    (lrun s es)._shutdown = true ∧ (lrun s es).exited = false ∧
    finals (lrun s es).actions = finals s.actions ∧
    (lrun s es).exitCaught = lastExitIntent s.exitCaught (triggersOf es) ∧
    (lrun s es).errorCaught = lastFailure s.errorCaught (triggersOf es) := by
  induction es generalizing s with
  | nil => simp [lrun, lastExitIntent, lastFailure, triggersOf, hs, hx]
  | cons e es ih =>
    have hes2 : ∀ e2 ∈ es, ∀ b, e2 ≠ LEvent.tick b true :=
      fun e2 h2 => hes e2 (List.mem_cons_of_mem _ h2)
    have hrun : lrun s (e :: es) = lrun (lstep s e) es := rfl
    rw [hrun]
    cases e with
    | trigger t =>
      obtain ⟨d1, d2, -, d4, d5, d6⟩ := deliver_installed s t hs
      have hstep : lstep s (LEvent.trigger t) = deliver s t := by simp [lstep, hx]
      rw [hstep]
      obtain ⟨i1, i2, i3, i4, i5⟩ := ih (deliver s t) d1 (d2.trans hx) hes2
      refine ⟨i1, i2, ?_, ?_, ?_⟩
      · rw [i3, d4, finals_append]
        by_cases hh : t.handled = true <;> simp [hh, finals, Action.isFinal]
      · rw [i4, d5]
        simp only [lastExitIntent, triggersOf, List.filterMap_cons]
        cases hi : t.exitIntent with
        | none => simp
        | some i => simp [List.getLast?_cons]
      · rw [i5, d6]
        simp only [lastFailure, triggersOf, List.filterMap_cons]
        cases hi : t.failure with
        | none => simp
        | some i =>
          simp only [List.filterMap_nil, List.getLast?_singleton, List.getLast?_cons]
          cases (List.filterMap Trigger.failure
            (List.filterMap (fun e => match e with
              | LEvent.trigger t => some t
              | LEvent.tick _ _ => none) es)).getLast? <;> simp
    | tick stopping stopped =>
      have hst : stopped = false := by
        cases stopped with
        | false => rfl
        | true => exact absurd rfl (hes (LEvent.tick stopping true) (List.mem_cons_self _ _) stopping)
      subst hst
      obtain ⟨w1, w2, w3, w4, w5⟩ := watchdog_running s stopping
      have hstep : lstep s (LEvent.tick stopping false) = watchdog s stopping false := by
        simp [lstep, hx, hs]
      rw [hstep]
      obtain ⟨i1, i2, i3, i4, i5⟩ := ih (watchdog s stopping false) (w1.trans hs) (w2.trans hx) hes2
      refine ⟨i1, i2, i3.trans w5, ?_, ?_⟩
      · rw [i4, w3]; simp [triggersOf]
      · rw [i5, w4]; simp [triggersOf]

theorem handled_iff (t : Trigger) :
    t.handled = true ↔ t.exitIntent ≠ none ∨ t.failure ≠ none := by
  cases t with
  | signal sig n => by_cases hn : n ≤ 1 <;> simp [Trigger.handled, Trigger.exitIntent, Trigger.failure, hn]
  | exit code => simp [Trigger.handled, Trigger.exitIntent, Trigger.failure]
  | uncaught err n => by_cases hn : n ≤ 1 <;> simp [Trigger.handled, Trigger.exitIntent, Trigger.failure, hn]

theorem exitIntent_ne_none (t : Trigger) (i : ExitCaught) (h : t.exitIntent = some i) :
    i ≠ ExitCaught.none := by
  cases t with
  | signal sig n =>
    by_cases hn : n ≤ 1
    · simp [Trigger.exitIntent, hn] at h; subst h; simp
    · simp [Trigger.exitIntent, hn] at h
  | exit code => simp [Trigger.exitIntent] at h; subst h; simp
  | uncaught err n => simp [Trigger.exitIntent] at h

theorem decision_length (ts : List Trigger) :
    (decision (lastExitIntent ExitCaught.none ts) (lastFailure none ts)).length
      = if ts.any Trigger.handled then 1 else 0 := by
  unfold lastExitIntent lastFailure
  cases h1 : (ts.filterMap Trigger.exitIntent).getLast? with
  | some i =>
    have hmem : i ∈ ts.filterMap Trigger.exitIntent := List.mem_of_getLast?_eq_some h1
    obtain ⟨t, ht, hti⟩ := List.mem_filterMap.1 hmem
    have hne := exitIntent_ne_none t i hti
    have hany : ts.any Trigger.handled = true :=
      List.any_eq_true.2 ⟨t, ht, (handled_iff t).2 (Or.inl (by simp [hti]))⟩
    rw [hany]
    cases i with
    | none => exact absurd rfl hne
    | signal sig => simp [decision]
    | code c => simp [decision]
  | none =>
    have hnil1 : ts.filterMap Trigger.exitIntent = [] := List.getLast?_eq_none_iff.1 h1
    cases h2 : (ts.filterMap Trigger.failure).getLast? with
    | some e =>
      have hmem : e ∈ ts.filterMap Trigger.failure := List.mem_of_getLast?_eq_some h2
      obtain ⟨t, ht, hte⟩ := List.mem_filterMap.1 hmem
      have hany : ts.any Trigger.handled = true :=
        List.any_eq_true.2 ⟨t, ht, (handled_iff t).2 (Or.inr (by simp [hte]))⟩
      rw [hany]
      simp [decision]
    | none =>
      have hnil2 : ts.filterMap Trigger.failure = [] := List.getLast?_eq_none_iff.1 h2
      have hany : ts.any Trigger.handled = false := by
        rw [Bool.eq_false_iff]
        intro hh
        obtain ⟨t, ht, hth⟩ := List.any_eq_true.1 hh
        rcases (handled_iff t).1 hth with h | h
        · obtain ⟨i, hi⟩ := Option.ne_none_iff_exists.1 h
          have : i ∈ ts.filterMap Trigger.exitIntent := List.mem_filterMap.2 ⟨t, ht, hi.symm⟩
          rw [hnil1] at this
          exact absurd this (List.not_mem_nil _)
        · obtain ⟨i, hi⟩ := Option.ne_none_iff_exists.1 h
          have : i ∈ ts.filterMap Trigger.failure := List.mem_filterMap.2 ⟨t, ht, hi.symm⟩
          rw [hnil2] at this
          exact absurd this (List.not_mem_nil _)
      rw [hany]
      simp [decision]

/-! ## Lifecycle coordinator: claims -/

/-- C1, as stated, fails: a SIGINT delivered while a second SIGINT listener is
registered is a termination trigger that records nothing, so the tick that observes
the engine as stopped cancels the watchdog and executes no final action at all. -/
theorem at_most_one_termination_counterexample :
    (lrun started [LEvent.trigger (Trigger.signal Signal.SIGINT 2)])._shutdown = true ∧
    (lrun started [LEvent.trigger (Trigger.signal Signal.SIGINT 2), LEvent.tick true true]).actions
      = [Action.log "shutting down...", Action.log "shut down.", Action.clearInterval] ∧
    (finals (lrun started
      [LEvent.trigger (Trigger.signal Signal.SIGINT 2), LEvent.tick true true]).actions).length
      ≠ 1 := by
  decide

/-- C1, amended: for every interleaving of triggers and ticks delivered from the
started state in which no tick observes the engine as stopped, the interval stays
installed, the real exit primitive is not invoked and no signal is re-raised; the
first tick that observes the engine as stopped cancels the watchdog and executes
exactly one final action provided some trigger was handled by its interceptor (and
none otherwise); after it the interval callback never runs again. -/
theorem at_most_one_termination (es : List LEvent)
    (hes : ∀ e ∈ es, ∀ b, e ≠ LEvent.tick b true) (stopping : Bool) :
    (lrun started es)._shutdown = true ∧ (lrun started es).exited = false ∧
    finals (lrun started es).actions = [] ∧
    (lstep (lrun started es) (LEvent.tick stopping true))._shutdown = false ∧
    Action.clearInterval ∈ (lstep (lrun started es) (LEvent.tick stopping true)).actions ∧
    (finals (lstep (lrun started es) (LEvent.tick stopping true)).actions).length
      = (if (triggersOf es).any Trigger.handled then 1 else 0) ∧
    ∀ a b, lstep (lstep (lrun started es) (LEvent.tick stopping true)) (LEvent.tick a b)
      = lstep (lrun started es) (LEvent.tick stopping true) := by
  obtain ⟨h1, h2, h3, h4, h5⟩ := lrun_installed es started rfl rfl hes
  obtain ⟨w1, w2, w3⟩ := watchdog_stopped (lrun started es) stopping
  have hstep : lstep (lrun started es) (LEvent.tick stopping true)
      = watchdog (lrun started es) stopping true := by
    simp [lstep, h1, h2]
  rw [hstep]
  refine ⟨h1, h2, ?_, w1, w2, ?_, ?_⟩
  · rw [h3]; rfl
  · rw [w3, h3, h4, h5]
    simpa [started, finals] using decision_length (triggersOf es)
  · intro a b
    simp [lstep, w1]

/-- C1 witness: a SIGINT, a tick that sees the engine running and an explicit
`process.exit(3)`, followed by the tick that sees the engine stopped. -/
theorem at_most_one_termination_witness :
    (∀ e ∈ [LEvent.trigger (Trigger.signal Signal.SIGINT 1), LEvent.tick true false,
        LEvent.trigger (Trigger.exit (some 3))], ∀ b, e ≠ LEvent.tick b true) ∧
    (finals (lstep (lrun started [LEvent.trigger (Trigger.signal Signal.SIGINT 1),
        LEvent.tick true false, LEvent.trigger (Trigger.exit (some 3))])
        (LEvent.tick true true)).actions).length = 1 :=
  ⟨by decide,
   (at_most_one_termination [LEvent.trigger (Trigger.signal Signal.SIGINT 1),
      LEvent.tick true false, LEvent.trigger (Trigger.exit (some 3))] (by decide) true).2.2.2.2.2.1⟩

/-- C5, as stated, fails: SIGINT is recorded first, a later `process.exit(3)`
overwrites it, and the watchdog then exits with status 3 instead of re-raising SIGINT;
an uncaught failure delivered after that is recorded as a second intent. -/
theorem first_intent_wins_counterexample :
    (lrun started [LEvent.trigger (Trigger.signal Signal.SIGINT 1)]).exitCaught
      = ExitCaught.signal Signal.SIGINT ∧
    (lrun started [LEvent.trigger (Trigger.signal Signal.SIGINT 1),
      LEvent.trigger (Trigger.exit (some 3))]).exitCaught = ExitCaught.code 3 ∧
    finals (lrun started [LEvent.trigger (Trigger.signal Signal.SIGINT 1),
      LEvent.trigger (Trigger.exit (some 3)), LEvent.tick true true]).actions
      = [Action.exit (some 3)] ∧
    finals (lrun started [LEvent.trigger (Trigger.signal Signal.SIGINT 1),
      LEvent.tick true true]).actions = [Action.kill Signal.SIGINT] ∧
    (lrun started [LEvent.trigger (Trigger.exit (some 3)),
      LEvent.trigger (Trigger.uncaught { stack := none } 1)]).exitCaught = ExitCaught.code 3 ∧
    (lrun started [LEvent.trigger (Trigger.exit (some 3)),
      LEvent.trigger (Trigger.uncaught { stack := none } 1)]).errorCaught
      = some { stack := none } := by
  decide

/-- C5, amended: for every sequence of triggers delivered while the interval is
installed, `exitCaught` holds what the last handled signal or `process.exit` trigger
wrote and `errorCaught` what the last handled uncaught failure wrote; at the tick that
observes the engine as stopped the final action is the re-raise of that signal or the
real exit with that code when `exitCaught` is set, and otherwise one real exit for the
recorded failure. -/
theorem last_intent_wins (ts : List Trigger) (stopping : Bool) :
    (lrun started (ts.map LEvent.trigger)).exitCaught = lastExitIntent ExitCaught.none ts ∧
    (lrun started (ts.map LEvent.trigger)).errorCaught = lastFailure none ts ∧
    (∀ sig, lastExitIntent ExitCaught.none ts = ExitCaught.signal sig →
      finals (lrun started (ts.map LEvent.trigger ++ [LEvent.tick stopping true])).actions
        = [Action.kill sig]) ∧
    (∀ c, lastExitIntent ExitCaught.none ts = ExitCaught.code c →
      finals (lrun started (ts.map LEvent.trigger ++ [LEvent.tick stopping true])).actions
        = [Action.exit (some c)]) ∧
    (lastExitIntent ExitCaught.none ts = ExitCaught.none → ∀ err, lastFailure none ts = some err →
      ∃ status,
        finals (lrun started (ts.map LEvent.trigger ++ [LEvent.tick stopping true])).actions
          = [Action.exit status]) := by
  have hes : ∀ e ∈ ts.map LEvent.trigger, ∀ b, e ≠ LEvent.tick b true := by
    intro e he b
    obtain ⟨t, -, rfl⟩ := List.mem_map.1 he
    simp
  have htr : triggersOf (ts.map LEvent.trigger) = ts := by
    simp [triggersOf, List.filterMap_map, Function.comp_def]
  obtain ⟨h1, h2, h3, h4, h5⟩ := lrun_installed (ts.map LEvent.trigger) started rfl rfl hes
  rw [htr] at h4 h5
  obtain ⟨-, -, w3⟩ := watchdog_stopped (lrun started (ts.map LEvent.trigger)) stopping
  have hfin : finals (lrun started (ts.map LEvent.trigger ++ [LEvent.tick stopping true])).actions
      = decision (lastExitIntent ExitCaught.none ts) (lastFailure none ts) := by
    have hrun : lrun started (ts.map LEvent.trigger ++ [LEvent.tick stopping true])
        = watchdog (lrun started (ts.map LEvent.trigger)) stopping true := by
      simp only [lrun, List.foldl_append, List.foldl_cons, List.foldl_nil]
      have h1b := h1
      have h2b := h2
      simp only [lrun] at h1b h2b
      simp [lstep, h1b, h2b]
    rw [hrun, w3, h3, h4, h5]
    rfl
  refine ⟨h4, h5, ?_, ?_, ?_⟩
  · intro sig hsig
    rw [hfin, hsig]; rfl
  · intro c hc
    rw [hfin, hc]; rfl
  · intro hn err herr
    rw [hfin, hn, herr]
    exact ⟨_, rfl⟩

/-- C6: the code at the failing input.  An uncaught failure is the only recorded
intent; the tick that observes the engine as stopped logs the stack and then calls the
real exit primitive with status 0. -/
theorem watchdog_failure_exit_status :
    (lrun started [LEvent.trigger (Trigger.uncaught { stack := some "Error: boom" } 1),
      LEvent.tick true true]).actions
      = [Action.stop, Action.log "shutting down...", Action.log "shut down.",
         Action.clearInterval, Action.consoleError "Error: boom", Action.exit (some 0)] ∧
    (lrun started [LEvent.tick false true,
      LEvent.trigger (Trigger.uncaught { stack := some "Error: boom" } 1)]).actions
      = [Action.log "shut down.", Action.clearInterval, Action.consoleError "Error: boom",
         Action.exit (some 1)] := by
  decide

/-- C7, as stated, fails: with no intent recorded, the tick that observes the engine
as stopped logs and cancels the watchdog and does not call the real exit primitive. -/
theorem watchdog_no_intent_counterexample :
    (lrun started [LEvent.tick true true]).actions
      = [Action.log "shutting down...", Action.log "shut down.", Action.clearInterval] ∧
    (lrun started [LEvent.tick true true]).exited = false ∧
    Action.exit (some 0) ∉ (lrun started [LEvent.tick true true]).actions := by
  decide

/-- C7, amended: for every run in which no trigger was handled and no earlier tick saw
the engine stopped, the tick that observes the engine as stopped logs `shut down.`,
cancels the watchdog and executes no final action: the real exit primitive is not
invoked and no signal is re-raised. -/
theorem watchdog_no_intent (es : List LEvent) (hes : ∀ e ∈ es, ∀ b, e ≠ LEvent.tick b true)
    (hnone : (triggersOf es).any Trigger.handled = false) (stopping : Bool) :
    (lstep (lrun started es) (LEvent.tick stopping true)).actions
      = (lrun started es).actions
        ++ (if !(lrun started es)._stoppingSaid && stopping
            then [Action.log "shutting down..."] else [])
        ++ [Action.log "shut down.", Action.clearInterval] ∧
    finals (lstep (lrun started es) (LEvent.tick stopping true)).actions = [] ∧
    (lstep (lrun started es) (LEvent.tick stopping true)).exited = false ∧
    (lstep (lrun started es) (LEvent.tick stopping true))._shutdown = false := by
  obtain ⟨h1, h2, h3, h4, h5⟩ := lrun_installed es started rfl rfl hes
  have hlen := decision_length (triggersOf es)
  rw [hnone] at hlen
  have hdec : decision (lrun started es).exitCaught (lrun started es).errorCaught = [] := by
    rw [h4, h5]
    exact List.length_eq_zero.1 (by simpa using hlen)
  obtain ⟨w1, -, w3⟩ := watchdog_stopped (lrun started es) stopping
  have hstep : lstep (lrun started es) (LEvent.tick stopping true)
      = watchdog (lrun started es) stopping true := by
    simp [lstep, h1, h2]
  rw [hstep]
  refine ⟨?_, ?_, ?_, w1⟩
  · revert hdec
    generalize lrun started es = s
    rcases s with ⟨sh, said, ec, err, acts, ex⟩
    cases ec <;> cases err <;> by_cases hc : (!said && stopping) = true <;>
      simp [watchdog, hc, Lifecycle.act, decision]
  · rw [w3, h3, hdec]; rfl
  · revert hdec h2
    generalize lrun started es = s
    rcases s with ⟨sh, said, ec, err, acts, ex⟩
    cases ec <;> cases err <;> by_cases hc : (!said && stopping) = true <;>
      simp [watchdog, hc, Lifecycle.act, decision]

/-- C7 witness: a SIGHUP deferred to another listener and a tick that sees the engine
running, followed by the tick that sees the engine stopped. -/
theorem watchdog_no_intent_witness :
    (∀ e ∈ [LEvent.trigger (Trigger.signal Signal.SIGHUP 2), LEvent.tick false false],
      ∀ b, e ≠ LEvent.tick b true) ∧
    (triggersOf [LEvent.trigger (Trigger.signal Signal.SIGHUP 2),
      LEvent.tick false false]).any Trigger.handled = false ∧
    finals (lstep (lrun started [LEvent.trigger (Trigger.signal Signal.SIGHUP 2),
      LEvent.tick false false]) (LEvent.tick true true)).actions = [] :=
  ⟨by decide, by decide,
   (watchdog_no_intent [LEvent.trigger (Trigger.signal Signal.SIGHUP 2),
      LEvent.tick false false] (by decide) (by decide) true).2.1⟩

/-- C8, as stated, fails: right after the interceptors are installed, with no stop
requested and the engine neither stopping nor stopped, the interval is installed, so a
SIGINT, a `process.exit(0)` or an uncaught failure requests engine stop and the real
exit primitive is not invoked inside the handler call. -/
theorem immediate_exit_counterexample :
    started._shutdown = true ∧
    (deliver started (Trigger.signal Signal.SIGINT 1)).actions = [Action.stop] ∧
    (deliver started (Trigger.signal Signal.SIGINT 1)).exited = false ∧
    (deliver started (Trigger.exit (some 0))).actions = [Action.stop] ∧
    (deliver started (Trigger.uncaught { stack := none } 1)).actions = [Action.stop] := by
  decide

/-- C8, amended: a handled trigger terminates the process inside the handler call,
without requesting engine stop, exactly when the interval is no longer installed
(`self._shutdown` was deleted by the tick that observed the engine as stopped); while
the interval is installed the handler requests engine stop and does not exit. -/
theorem immediate_exit (s : Lifecycle) (t : Trigger) (ht : t.handled = true) :
    (deliver s t).actions = s.actions ++ (if s._shutdown then [Action.stop] else t.immediate) ∧
    (deliver s t).exited = (s.exited || !s._shutdown) ∧
    (s._shutdown = false → Action.stop ∉ t.immediate ∧ finals t.immediate ≠ []) := by
  rcases s with ⟨sh, said, ec, err, acts, ex⟩
  cases t with
  | signal sig n =>
    have hn : ¬ n > 1 := by simpa [Trigger.handled] using ht
    cases sh <;>
      simp [deliver, signalListener, processExit, _exit, stop, Lifecycle.act, hn,
        Trigger.immediate, finals, Action.isFinal]
  | exit code =>
    cases sh <;>
      simp [deliver, processExit, _exit, stop, Lifecycle.act, Trigger.immediate, finals,
        Action.isFinal]
  | uncaught e n =>
    have hn : ¬ n > 1 := by simpa [Trigger.handled] using ht
    rcases e with ⟨st⟩
    cases sh <;> cases st <;>
      simp [deliver, uncaughtException, _exit, stop, Lifecycle.act, hn, Trigger.immediate,
        finals, Action.isFinal]

/-- C8 witness: the engine stopped by itself, the watchdog deleted `_shutdown`, and a
SIGINT then ends the process inside the handler call with status 0. -/
theorem immediate_exit_witness :
    (Trigger.signal Signal.SIGINT 1).handled = true ∧
    (deliver (lrun started [LEvent.tick true true]) (Trigger.signal Signal.SIGINT 1)).actions
      = (lrun started [LEvent.tick true true]).actions ++ [Action.exit (some 0)] :=
  ⟨by decide,
   (immediate_exit (lrun started [LEvent.tick true true]) (Trigger.signal Signal.SIGINT 1)
      (by decide)).1⟩

/-! ## Poll loops: emission -/

theorem view_runDone (s : Node) (d : Done) : view (runDone s d) = view s := by
  cases d <;> rfl

theorem view_foldl_iter {α : Type} (iter : Node → α → Nat → Node)
    (g : List Hash × List Emitted → α → List Hash × List Emitted)
    (hiter : ∀ s x c, view (iter s x c) = g (view s) x) (c : Nat) (obj : List α) (s : Node) :
    view (obj.foldl (fun acc item => iter acc item c) s) = obj.foldl g (view s) := by
  induction obj generalizing s with
  | nil => rfl
  | cons x xs ih => simp only [List.foldl_cons]; rw [ih, hiter]

theorem view_forEach {α : Type} (iter : Node → α → Nat → Node)
    (g : List Hash × List Emitted → α → List Hash × List Emitted)
    (hiter : ∀ s x c, view (iter s x c) = g (view s) x) (s : Node) (obj : List α) (done : Done) :
    view (forEach s obj iter done) = obj.foldl g (view s) := by
  unfold forEach
  by_cases h : obj.length = 0
  · have : obj = [] := List.length_eq_zero.1 h
    subst this
    simp [view_runDone]
  · simp only [h, if_false]
    rw [view_foldl_iter iter g hiter]
    rfl

theorem view_txIter (s : Node) (t : Tx) (c : Nat) :
    view (txIter s t c) = ((view s).1, (view s).2 ++ [Emitted.tx t]) := rfl

theorem foldl_append_tx (txs : List Tx) (v : List Hash × List Emitted) :
    txs.foldl (fun w t => (w.1, w.2 ++ [Emitted.tx t])) v = (v.1, v.2 ++ txs.map Emitted.tx) := by
  induction txs generalizing v with
  | nil => simp
  | cons t ts ih => simp [ih]

theorem view_blockIter (s : Node) (b : Block) (c : Nat) :
    view (blockIter s b c) = viewBlock (view s) b := by
  unfold blockIter viewBlock
  by_cases h : hasKey s._emitted b.hash = true
  · have hv : hasKey (view s).1 b.hash = true := h
    rw [if_pos h, if_pos hv]
    rfl
  · have hv : ¬ hasKey (view s).1 b.hash = true := h
    rw [if_neg h, if_neg hv]
    rw [view_forEach txIter (fun w t => (w.1, w.2 ++ [Emitted.tx t])) view_txIter, foldl_append_tx]
    simp [view, emit, blockEvents]

theorem view_mempoolIter (s : Node) (t : Tx) (c : Nat) :
    view (mempoolIter s t c) = viewTx (view s) t := by
  unfold mempoolIter viewTx
  by_cases h : hasKey s._emitted t.hash = true
  · have hv : hasKey (view s).1 t.hash = true := h
    rw [if_pos h, if_pos hv]
    rfl
  · have hv : ¬ hasKey (view s).1 t.hash = true := h
    rw [if_neg h, if_neg hv]
    simp [view, emit, setImmediate]

theorem view_handle (s : Node) (b : Batch) :
    view (handle s b) = match b with
      | Batch.blocks bs => bs.foldl viewBlock (view s)
      | Batch.mempool txs => txs.foldl viewTx (view s) := by
  cases b with
  | blocks bs => exact view_forEach blockIter viewBlock view_blockIter s bs _
  | mempool txs => exact view_forEach mempoolIter viewTx view_mempoolIter s txs _

theorem hasKey_cons (x : Hash) (stored : List Hash) (h : Hash) :
    hasKey (x :: stored) h = (decide (h = x) || hasKey stored h) := by
  simp [hasKey, Bool.or_assoc]

theorem hasKey_iff_mem (stored : List Hash) (h : Hash) (hk : h ∉ inheritedKeys) :
    hasKey stored h = true ↔ h ∈ stored := by
  simp [hasKey, hk]

theorem foldl_viewBlock_fresh (bs : List Block) (v : List Hash × List Emitted)
    (hnodup : (bs.map Block.hash).Nodup) (hfresh : ∀ b ∈ bs, hasKey v.1 b.hash = false) :
    (bs.foldl viewBlock v).2 = v.2 ++ bs.flatMap blockEvents := by
  induction bs generalizing v with
  | nil => simp
  | cons b bs ih =>
    have hb : hasKey v.1 b.hash = false := hfresh b (List.mem_cons_self _ _)
    have hnd : b.hash ∉ bs.map Block.hash ∧ (bs.map Block.hash).Nodup := by
      rw [List.map_cons] at hnodup
      exact List.nodup_cons.1 hnodup
    simp only [List.foldl_cons]
    have hvb : viewBlock v b = (b.hash :: v.1, v.2 ++ blockEvents b) := by
      simp [viewBlock, hb]
    rw [hvb, ih _ hnd.2]
    · simp [List.flatMap_cons]
    · intro b2 hb2
      rw [hasKey_cons, hfresh b2 (List.mem_cons_of_mem _ hb2)]
      have hne : ¬ b2.hash = b.hash := fun heq => hnd.1 (List.mem_map.2 ⟨b2, hb2, heq⟩)
      simp [hne]

/-- The read `self._emitted[hash]` is truthy for a property name inherited from
`Object.prototype`: such an item is skipped, nothing is emitted and nothing is stored. -/
theorem inherited_key_is_skipped :
    (pollBlocksCallback start (Except.ok
      [{ hash := "constructor", tx := [{ hash := "T1" }] }])).events = [] ∧
    (pollBlocksCallback start (Except.ok
      [{ hash := "constructor", tx := [{ hash := "T1" }] }]))._emitted = [] ∧
    (pollMempoolCallback start (Except.ok
      [{ hash := "__proto__" }, { hash := "toString" }])).events = [] := by
  decide

/-- C3: for every successful block-poll batch whose hashes are pairwise distinct and
not yet seen (the read `self._emitted[hash]` is falsy), the events emitted while the batch is handled are, in the order the
engine returned the blocks, each `block` event followed by a `tx` event for every
transaction of that block in container order, with no dedup check on the contained
transactions. -/
theorem batch_emission_order (s : Node) (blocks : List Block)
    (hnodup : (blocks.map Block.hash).Nodup)
    (hfresh : ∀ b ∈ blocks, hasKey s._emitted b.hash = false) :
    (pollBlocksCallback s (Except.ok blocks)).events
      = s.events ++ blocks.flatMap (fun b => Emitted.block b :: b.tx.map Emitted.tx) := by
  have h := view_handle s (Batch.blocks blocks)
  have h2 := congrArg Prod.snd h
  simp only [handle] at h2
  have h3 := foldl_viewBlock_fresh blocks (view s) hnodup hfresh
  exact h2.trans h3

/-- C3 witness: the batch `[B1(tx: T1, T2), B2(tx: T1)]` on a started instance emits
`block(B1)`, `tx(T1)`, `tx(T2)`, `block(B2)`, `tx(T1)`. -/
theorem batch_emission_order_witness :
    (([{ hash := "B1", tx := [{ hash := "T1" }, { hash := "T2" }] },
       { hash := "B2", tx := [{ hash := "T1" }] }] : List Block).map Block.hash).Nodup ∧
    (∀ b ∈ ([{ hash := "B1", tx := [{ hash := "T1" }, { hash := "T2" }] },
       { hash := "B2", tx := [{ hash := "T1" }] }] : List Block),
      hasKey start._emitted b.hash = false) ∧
    (pollBlocksCallback start (Except.ok
      [{ hash := "B1", tx := [{ hash := "T1" }, { hash := "T2" }] },
       { hash := "B2", tx := [{ hash := "T1" }] }])).events
      = [Emitted.block { hash := "B1", tx := [{ hash := "T1" }, { hash := "T2" }] },
         Emitted.tx { hash := "T1" }, Emitted.tx { hash := "T2" },
         Emitted.block { hash := "B2", tx := [{ hash := "T1" }] },
         Emitted.tx { hash := "T1" }] :=
  ⟨by decide, by decide,
   batch_emission_order start
     [{ hash := "B1", tx := [{ hash := "T1" }, { hash := "T2" }] },
      { hash := "B2", tx := [{ hash := "T1" }] }] (by decide) (by decide)⟩

/-! ## Poll loops: first-occurrence dedup -/

theorem removeSeenEarlier_concat {α : Type} (key : α → Hash) (xs : List α) (x : α) :
    removeSeenEarlier key (xs ++ [x])
      = removeSeenEarlier key xs ++ (if key x ∈ xs.map key then [] else [x]) := by
  unfold removeSeenEarlier
  rw [List.length_append, List.length_singleton, List.range_succ, List.filterMap_append]
  congr 1
  · apply List.filterMap_congr
    intro i hi
    have hi2 : i < xs.length := List.mem_range.1 hi
    rw [List.getElem?_append_left hi2, List.take_append_of_le_length (Nat.le_of_lt hi2)]
  · simp only [List.filterMap_cons, List.filterMap_nil, List.getElem?_concat_length,
      List.take_left]
    by_cases h : key x ∈ xs.map key <;> simp [h]

theorem removeSeenEarlier_nil {α : Type} (key : α → Hash) :
    removeSeenEarlier key ([] : List α) = [] := rfl

theorem mem_of_mem_removeSeenEarlier {α : Type} (key : α → Hash) (xs : List α) (y : α)
    (h : y ∈ removeSeenEarlier key xs) : y ∈ xs := by
  induction xs using List.reverseRecOn with
  | nil => simp [removeSeenEarlier_nil] at h
  | append_singleton xs x ih =>
    rw [removeSeenEarlier_concat, List.mem_append] at h
    rcases h with h | h
    · exact List.mem_append_left _ (ih h)
    · by_cases hx : key x ∈ xs.map key
      · simp [hx] at h
      · simp only [hx, if_false, List.mem_singleton] at h
        subst h
        simp

theorem removeSeenEarlier_nodup {α : Type} (key : α → Hash) (xs : List α) :
    ((removeSeenEarlier key xs).map key).Nodup := by
  induction xs using List.reverseRecOn with
  | nil => simp [removeSeenEarlier_nil]
  | append_singleton xs x ih =>
    rw [removeSeenEarlier_concat]
    by_cases hx : key x ∈ xs.map key
    · simpa [hx] using ih
    · simp only [hx, if_false, List.map_append, List.map_cons, List.map_nil]
      rw [List.nodup_append]
      refine ⟨ih, List.nodup_singleton _, ?_⟩
      intro k hk hk2
      rw [List.mem_singleton] at hk2
      subst hk2
      obtain ⟨y, hy, hyk⟩ := List.mem_map.1 hk
      exact hx (List.mem_map.2 ⟨y, mem_of_mem_removeSeenEarlier key xs y hy, hyk⟩)

theorem blockEventsOf_append (a b : List Emitted) :
    blockEventsOf (a ++ b) = blockEventsOf a ++ blockEventsOf b := by
  simp [blockEventsOf]

theorem mptxEventsOf_append (a b : List Emitted) :
    mptxEventsOf (a ++ b) = mptxEventsOf a ++ mptxEventsOf b := by
  simp [mptxEventsOf]

theorem blockEventsOf_blockEvents (b : Block) : blockEventsOf (blockEvents b) = [b] := by
  simp [blockEventsOf, blockEvents, List.filterMap_map, Function.comp_def]

theorem mptxEventsOf_blockEvents (b : Block) : mptxEventsOf (blockEvents b) = [] := by
  simp [mptxEventsOf, blockEvents, List.filterMap_map, Function.comp_def]

theorem viewBlock_inv (v : List Hash × List Emitted) (B : List Block) (M : List Tx) (b : Block)
    (hmem : ∀ h, h ∈ v.1 ↔ h ∈ B.map Block.hash ∨ h ∈ M.map Tx.hash)
    (hB : blockEventsOf v.2 = removeSeenEarlier Block.hash B)
    (hM : mptxEventsOf v.2 = removeSeenEarlier Tx.hash M)
    (hd : b.hash ∉ M.map Tx.hash) (hk : b.hash ∉ inheritedKeys) :
    (∀ h, h ∈ (viewBlock v b).1 ↔ h ∈ (B ++ [b]).map Block.hash ∨ h ∈ M.map Tx.hash) ∧
    blockEventsOf (viewBlock v b).2 = removeSeenEarlier Block.hash (B ++ [b]) ∧
    mptxEventsOf (viewBlock v b).2 = removeSeenEarlier Tx.hash M := by
  rw [removeSeenEarlier_concat]
  by_cases hb : b.hash ∈ v.1
  · have hbB : b.hash ∈ B.map Block.hash := by
      rcases (hmem _).1 hb with h | h
      · exact h
      · exact absurd h hd
    have hv : viewBlock v b = v := by simp [viewBlock, (hasKey_iff_mem v.1 b.hash hk).2 hb]
    rw [hv]
    refine ⟨?_, by simp [hbB, hB], hM⟩
    intro h
    rw [hmem h]
    simp only [List.map_append, List.map_cons, List.map_nil, List.mem_append, List.mem_singleton]
    constructor
    · rintro (h1 | h1)
      · exact Or.inl (Or.inl h1)
      · exact Or.inr h1
    · rintro ((h1 | h1) | h1)
      · exact Or.inl h1
      · exact Or.inl (h1 ▸ hbB)
      · exact Or.inr h1
  · have hbB : b.hash ∉ B.map Block.hash := fun h => hb ((hmem _).2 (Or.inl h))
    have hv : viewBlock v b = (b.hash :: v.1, v.2 ++ blockEvents b) := by
      have : ¬ hasKey v.1 b.hash = true := fun h => hb ((hasKey_iff_mem v.1 b.hash hk).1 h)
      simp [viewBlock, this]
    rw [hv]
    refine ⟨?_, ?_, ?_⟩
    · intro h
      simp only [List.mem_cons, hmem h, List.map_append, List.map_cons, List.map_nil,
        List.mem_append, List.mem_singleton]
      tauto
    · simp [blockEventsOf_append, blockEventsOf_blockEvents, hB, hbB]
    · simp [mptxEventsOf_append, mptxEventsOf_blockEvents, hM]

theorem viewTx_inv (v : List Hash × List Emitted) (B : List Block) (M : List Tx) (t : Tx)
    (hmem : ∀ h, h ∈ v.1 ↔ h ∈ B.map Block.hash ∨ h ∈ M.map Tx.hash)
    (hB : blockEventsOf v.2 = removeSeenEarlier Block.hash B)
    (hM : mptxEventsOf v.2 = removeSeenEarlier Tx.hash M)
    (hd : t.hash ∉ B.map Block.hash) (hk : t.hash ∉ inheritedKeys) :
    (∀ h, h ∈ (viewTx v t).1 ↔ h ∈ B.map Block.hash ∨ h ∈ (M ++ [t]).map Tx.hash) ∧
    blockEventsOf (viewTx v t).2 = removeSeenEarlier Block.hash B ∧
    mptxEventsOf (viewTx v t).2 = removeSeenEarlier Tx.hash (M ++ [t]) := by
  rw [removeSeenEarlier_concat]
  by_cases ht : t.hash ∈ v.1
  · have htM : t.hash ∈ M.map Tx.hash := by
      rcases (hmem _).1 ht with h | h
      · exact absurd h hd
      · exact h
    have hv : viewTx v t = v := by simp [viewTx, (hasKey_iff_mem v.1 t.hash hk).2 ht]
    rw [hv]
    refine ⟨?_, hB, by simp [htM, hM]⟩
    intro h
    rw [hmem h]
    simp only [List.map_append, List.map_cons, List.map_nil, List.mem_append, List.mem_singleton]
    constructor
    · rintro (h1 | h1)
      · exact Or.inl h1
      · exact Or.inr (Or.inl h1)
    · rintro (h1 | h1 | h1)
      · exact Or.inl h1
      · exact Or.inr h1
      · exact Or.inr (h1 ▸ htM)
  · have htM : t.hash ∉ M.map Tx.hash := fun h => ht ((hmem _).2 (Or.inr h))
    have hv : viewTx v t = (t.hash :: v.1, v.2 ++ [Emitted.mptx t, Emitted.tx t]) := by
      have : ¬ hasKey v.1 t.hash = true := fun h => ht ((hasKey_iff_mem v.1 t.hash hk).1 h)
      simp [viewTx, this]
    rw [hv]
    refine ⟨?_, ?_, ?_⟩
    · intro h
      simp only [List.mem_cons, hmem h, List.map_append, List.map_cons, List.map_nil,
        List.mem_append, List.mem_singleton]
      tauto
    · have he : blockEventsOf [Emitted.mptx t, Emitted.tx t] = [] := rfl
      simp only [blockEventsOf_append, hB, he, List.append_nil]
    · have he : mptxEventsOf [Emitted.mptx t, Emitted.tx t] = [t] := rfl
      simp only [mptxEventsOf_append, hM, he, htM, if_false]

theorem foldl_viewBlock_inv (bs : List Block) (v : List Hash × List Emitted) (B : List Block)
    (M : List Tx)
    (hmem : ∀ h, h ∈ v.1 ↔ h ∈ B.map Block.hash ∨ h ∈ M.map Tx.hash)
    (hB : blockEventsOf v.2 = removeSeenEarlier Block.hash B)
    (hM : mptxEventsOf v.2 = removeSeenEarlier Tx.hash M)
    (hd : ∀ b ∈ bs, b.hash ∉ M.map Tx.hash) (hk : ∀ b ∈ bs, b.hash ∉ inheritedKeys) :
    (∀ h, h ∈ (bs.foldl viewBlock v).1 ↔ h ∈ (B ++ bs).map Block.hash ∨ h ∈ M.map Tx.hash) ∧
    blockEventsOf (bs.foldl viewBlock v).2 = removeSeenEarlier Block.hash (B ++ bs) ∧
    mptxEventsOf (bs.foldl viewBlock v).2 = removeSeenEarlier Tx.hash M := by
  induction bs generalizing v B with
  | nil =>
    simp only [List.foldl_nil, List.append_nil]
    exact ⟨hmem, hB, hM⟩
  | cons b bs ih =>
    obtain ⟨h1, h2, h3⟩ := viewBlock_inv v B M b hmem hB hM (hd b (List.mem_cons_self _ _))
      (hk b (List.mem_cons_self _ _))
    have := ih (viewBlock v b) (B ++ [b]) h1 h2 h3
      (fun b2 hb2 => hd b2 (List.mem_cons_of_mem _ hb2))
      (fun b2 hb2 => hk b2 (List.mem_cons_of_mem _ hb2))
    simpa using this

theorem foldl_viewTx_inv (ts : List Tx) (v : List Hash × List Emitted) (B : List Block)
    (M : List Tx)
    (hmem : ∀ h, h ∈ v.1 ↔ h ∈ B.map Block.hash ∨ h ∈ M.map Tx.hash)
    (hB : blockEventsOf v.2 = removeSeenEarlier Block.hash B)
    (hM : mptxEventsOf v.2 = removeSeenEarlier Tx.hash M)
    (hd : ∀ t ∈ ts, t.hash ∉ B.map Block.hash) (hk : ∀ t ∈ ts, t.hash ∉ inheritedKeys) :
    (∀ h, h ∈ (ts.foldl viewTx v).1 ↔ h ∈ B.map Block.hash ∨ h ∈ (M ++ ts).map Tx.hash) ∧
    blockEventsOf (ts.foldl viewTx v).2 = removeSeenEarlier Block.hash B ∧
    mptxEventsOf (ts.foldl viewTx v).2 = removeSeenEarlier Tx.hash (M ++ ts) := by
  induction ts generalizing v M with
  | nil =>
    simp only [List.foldl_nil, List.append_nil]
    exact ⟨hmem, hB, hM⟩
  | cons t ts ih =>
    obtain ⟨h1, h2, h3⟩ := viewTx_inv v B M t hmem hB hM (hd t (List.mem_cons_self _ _))
      (hk t (List.mem_cons_self _ _))
    have := ih (viewTx v t) (M ++ [t]) h1 h2 h3
      (fun t2 ht2 => hd t2 (List.mem_cons_of_mem _ ht2))
      (fun t2 ht2 => hk t2 (List.mem_cons_of_mem _ ht2))
    simpa using this

theorem handleAll_inv (batches : List Batch) (s : Node) (B : List Block) (M : List Tx)
    (hmem : ∀ h, h ∈ (view s).1 ↔ h ∈ B.map Block.hash ∨ h ∈ M.map Tx.hash)
    (hB : blockEventsOf (view s).2 = removeSeenEarlier Block.hash B)
    (hM : mptxEventsOf (view s).2 = removeSeenEarlier Tx.hash M)
    (hd : ∀ b ∈ B ++ blocksOf batches, ∀ t ∈ M ++ mempoolOf batches, b.hash ≠ t.hash)
    (hkB : ∀ b ∈ blocksOf batches, b.hash ∉ inheritedKeys)
    (hkM : ∀ t ∈ mempoolOf batches, t.hash ∉ inheritedKeys) :
    blockEventsOf (handleAll s batches).events
      = removeSeenEarlier Block.hash (B ++ blocksOf batches) ∧
    mptxEventsOf (handleAll s batches).events
      = removeSeenEarlier Tx.hash (M ++ mempoolOf batches) := by
  induction batches generalizing s B M with
  | nil => simpa [handleAll, blocksOf, mempoolOf] using ⟨hB, hM⟩
  | cons batch rest ih =>
    have hrun : handleAll s (batch :: rest) = handleAll (handle s batch) rest := rfl
    rw [hrun]
    cases batch with
    | blocks bs =>
      have hb1 : blocksOf (Batch.blocks bs :: rest) = bs ++ blocksOf rest := by
        simp [blocksOf, List.flatMap_cons]
      have hm1 : mempoolOf (Batch.blocks bs :: rest) = mempoolOf rest := by
        simp [mempoolOf, List.flatMap_cons]
      rw [hb1] at hkB
      rw [hm1] at hkM
      rw [hb1, hm1] at hd ⊢
      have hv := view_handle s (Batch.blocks bs)
      simp only at hv
      have hdb : ∀ b ∈ bs, b.hash ∉ M.map Tx.hash := by
        intro b hb hin
        obtain ⟨t, ht, hte⟩ := List.mem_map.1 hin
        exact hd b (by simp [hb]) t (by simp [ht]) hte.symm
      obtain ⟨h1, h2, h3⟩ := foldl_viewBlock_inv bs (view s) B M hmem hB hM hdb
        (fun b hb => hkB b (List.mem_append_left _ hb))
      rw [← hv] at h1 h2 h3
      have := ih (handle s (Batch.blocks bs)) (B ++ bs) M h1 h2 h3 (by simpa using hd)
        (fun b hb => hkB b (List.mem_append_right _ hb)) hkM
      simpa using this
    | mempool ts =>
      have hb1 : blocksOf (Batch.mempool ts :: rest) = blocksOf rest := by
        simp [blocksOf, List.flatMap_cons]
      have hm1 : mempoolOf (Batch.mempool ts :: rest) = ts ++ mempoolOf rest := by
        simp [mempoolOf, List.flatMap_cons]
      rw [hb1] at hkB
      rw [hm1] at hkM
      rw [hb1, hm1] at hd ⊢
      have hv := view_handle s (Batch.mempool ts)
      simp only at hv
      have hdt : ∀ t ∈ ts, t.hash ∉ B.map Block.hash := by
        intro t ht hin
        obtain ⟨b, hb, hbe⟩ := List.mem_map.1 hin
        exact hd b (by simp [hb]) t (by simp [ht]) hbe
      obtain ⟨h1, h2, h3⟩ := foldl_viewTx_inv ts (view s) B M hmem hB hM hdt
        (fun t ht => hkM t (List.mem_append_left _ ht))
      rw [← hv] at h1 h2 h3
      have := ih (handle s (Batch.mempool ts)) B (M ++ ts) h1 h2 h3 (by simpa using hd)
        hkB (fun t ht => hkM t (List.mem_append_right _ ht))
      simpa using this

/-- Every key inherited from `Object.prototype` is shorter than the 64 characters of
a hex digest, so no digest reported by the engine is an inherited key. -/
theorem digest_not_inherited (h : Hash) (hlen : h.length = 64) : h ∉ inheritedKeys := by
  intro hmem
  simp only [inheritedKeys, List.mem_cons, List.mem_singleton, List.not_mem_nil,
    or_false] at hmem
  rcases hmem with rfl | rfl | rfl | rfl | rfl | rfl | rfl | rfl | rfl | rfl | rfl | rfl <;>
    exact absurd hlen (by decide)

/-- C2: for every finite sequence of successful poll batches handled by a started
instance, block hashes and mempool transaction hashes being disjoint and no hash being
a property name inherited from `Object.prototype` (no hex digest is one), the `block`
events are the blocks of the concatenated block batches with every block removed whose
hash occurred earlier, the `mptx` events are the transactions of the concatenated
mempool batches with every transaction removed whose hash occurred earlier, and no
hash is carried by two `block` events. -/
theorem first_occurrence_dedup (batches : List Batch)
    (hdisj : ∀ b ∈ blocksOf batches, ∀ t ∈ mempoolOf batches, b.hash ≠ t.hash)
    (hblocks : ∀ b ∈ blocksOf batches, b.hash ∉ inheritedKeys)
    (htxs : ∀ t ∈ mempoolOf batches, t.hash ∉ inheritedKeys) :
    blockEventsOf (handleAll start batches).events
      = removeSeenEarlier Block.hash (blocksOf batches) ∧
    mptxEventsOf (handleAll start batches).events
      = removeSeenEarlier Tx.hash (mempoolOf batches) ∧
    ((blockEventsOf (handleAll start batches).events).map Block.hash).Nodup := by
  have h := handleAll_inv batches start [] [] (by simp [view, start]) rfl rfl
    (by simpa using hdisj) hblocks htxs
  simp only [List.nil_append] at h
  refine ⟨h.1, h.2, ?_⟩
  rw [h.1]
  exact removeSeenEarlier_nodup _ _

/-- C2 witness: block batches `[B1, B2]` and `[B2, B3]` around the mempool batch
`[T1, T1]`. -/
theorem first_occurrence_dedup_witness :
    (∀ b ∈ blocksOf [Batch.blocks [{ hash := "B1", tx := [] }, { hash := "B2", tx := [] }],
        Batch.mempool [{ hash := "T1" }, { hash := "T1" }],
        Batch.blocks [{ hash := "B2", tx := [] }, { hash := "B3", tx := [] }]],
      ∀ t ∈ mempoolOf [Batch.blocks [{ hash := "B1", tx := [] }, { hash := "B2", tx := [] }],
        Batch.mempool [{ hash := "T1" }, { hash := "T1" }],
        Batch.blocks [{ hash := "B2", tx := [] }, { hash := "B3", tx := [] }]],
      b.hash ≠ t.hash) ∧
    (∀ b ∈ blocksOf [Batch.blocks [{ hash := "B1", tx := [] }, { hash := "B2", tx := [] }],
        Batch.mempool [{ hash := "T1" }, { hash := "T1" }],
        Batch.blocks [{ hash := "B2", tx := [] }, { hash := "B3", tx := [] }]],
      b.hash ∉ inheritedKeys) ∧
    (∀ t ∈ mempoolOf [Batch.blocks [{ hash := "B1", tx := [] }, { hash := "B2", tx := [] }],
        Batch.mempool [{ hash := "T1" }, { hash := "T1" }],
        Batch.blocks [{ hash := "B2", tx := [] }, { hash := "B3", tx := [] }]],
      t.hash ∉ inheritedKeys) ∧
    ((blockEventsOf (handleAll start
      [Batch.blocks [{ hash := "B1", tx := [] }, { hash := "B2", tx := [] }],
        Batch.mempool [{ hash := "T1" }, { hash := "T1" }],
        Batch.blocks [{ hash := "B2", tx := [] }, { hash := "B3", tx := [] }]]).events).map
      Block.hash).Nodup ∧
    removeSeenEarlier Block.hash (blocksOf
      [Batch.blocks [{ hash := "B1", tx := [] }, { hash := "B2", tx := [] }],
        Batch.mempool [{ hash := "T1" }, { hash := "T1" }],
        Batch.blocks [{ hash := "B2", tx := [] }, { hash := "B3", tx := [] }]])
      = [{ hash := "B1", tx := [] }, { hash := "B2", tx := [] }, { hash := "B3", tx := [] }] :=
  ⟨by decide, by decide, by decide,
   (first_occurrence_dedup
      [Batch.blocks [{ hash := "B1", tx := [] }, { hash := "B2", tx := [] }],
        Batch.mempool [{ hash := "T1" }, { hash := "T1" }],
        Batch.blocks [{ hash := "B2", tx := [] }, { hash := "B3", tx := [] }]]
      (by decide) (by decide) (by decide)).2.2,
   by decide⟩

/-! ## Poll loops: dedup invariant -/

theorem viewBlock_unseen (v : List Hash × List Emitted) (b : Block) :
    ∃ new, (viewBlock v b).2 = v.2 ++ new ∧ (∀ h ∈ v.1, h ∈ (viewBlock v b).1) ∧
      ∀ e ∈ new, e.unseen v.1 := by
  by_cases hb : hasKey v.1 b.hash = true
  · exact ⟨[], by simp [viewBlock, hb], by simp [viewBlock, hb], by simp⟩
  · have hmem : b.hash ∉ v.1 := fun h => hb (by simp [hasKey, h])
    refine ⟨blockEvents b, by simp [viewBlock, hb], ?_, ?_⟩
    · intro h hh
      simp [viewBlock, hb, hh]
    · intro e he
      simp only [blockEvents, List.mem_cons, List.mem_map] at he
      rcases he with rfl | ⟨t, -, rfl⟩
      · exact hmem
      · trivial

theorem viewTx_unseen (v : List Hash × List Emitted) (t : Tx) :
    ∃ new, (viewTx v t).2 = v.2 ++ new ∧ (∀ h ∈ v.1, h ∈ (viewTx v t).1) ∧
      ∀ e ∈ new, e.unseen v.1 := by
  by_cases ht : hasKey v.1 t.hash = true
  · exact ⟨[], by simp [viewTx, ht], by simp [viewTx, ht], by simp⟩
  · have hmem : t.hash ∉ v.1 := fun h => ht (by simp [hasKey, h])
    refine ⟨[Emitted.mptx t, Emitted.tx t], by simp [viewTx, ht], ?_, ?_⟩
    · intro h hh
      simp [viewTx, ht, hh]
    · intro e he
      simp only [List.mem_cons, List.mem_singleton, List.not_mem_nil, or_false] at he
      rcases he with rfl | rfl
      · exact hmem
      · trivial

theorem unseen_mono (seen seen2 : List Hash) (hsub : ∀ h ∈ seen, h ∈ seen2) (e : Emitted)
    (he : e.unseen seen2) : e.unseen seen := by
  cases e with
  | block b => exact fun h => he (hsub _ h)
  | mptx t => exact fun h => he (hsub _ h)
  | tx t => trivial

theorem foldl_unseen {α : Type} (g : List Hash × List Emitted → α → List Hash × List Emitted)
    (hg : ∀ v x, ∃ new, (g v x).2 = v.2 ++ new ∧ (∀ h ∈ v.1, h ∈ (g v x).1) ∧
      ∀ e ∈ new, e.unseen v.1)
    (xs : List α) (v : List Hash × List Emitted) :
    ∃ new, (xs.foldl g v).2 = v.2 ++ new ∧ (∀ h ∈ v.1, h ∈ (xs.foldl g v).1) ∧
      ∀ e ∈ new, e.unseen v.1 := by
  induction xs generalizing v with
  | nil => exact ⟨[], by simp, by simp, by simp⟩
  | cons x xs ih =>
    obtain ⟨n1, e1, m1, u1⟩ := hg v x
    obtain ⟨n2, e2, m2, u2⟩ := ih (g v x)
    refine ⟨n1 ++ n2, ?_, ?_, ?_⟩
    · simp only [List.foldl_cons]
      rw [e2, e1, List.append_assoc]
    · intro h hh
      exact m2 h (m1 h hh)
    · intro e he
      rcases List.mem_append.1 he with h | h
      · exact u1 e h
      · exact unseen_mono _ _ m1 e (u2 e h)

theorem handle_unseen (v : Node) (b : Batch) :
    ∃ new, (view (handle v b)).2 = (view v).2 ++ new ∧
      (∀ h ∈ (view v).1, h ∈ (view (handle v b)).1) ∧ ∀ e ∈ new, e.unseen (view v).1 := by
  rw [view_handle]
  cases b with
  | blocks bs => exact foldl_unseen viewBlock viewBlock_unseen bs (view v)
  | mempool ts => exact foldl_unseen viewTx viewTx_unseen ts (view v)

theorem handleAll_unseen (batches : List Batch) (s : Node) :
    ∃ new, (handleAll s batches).events = s.events ++ new ∧
      (∀ h ∈ s._emitted, h ∈ (handleAll s batches)._emitted) ∧
      ∀ e ∈ new, e.unseen s._emitted := by
  induction batches generalizing s with
  | nil => exact ⟨[], by simp [handleAll], by simp [handleAll], by simp⟩
  | cons b rest ih =>
    obtain ⟨n1, e1, m1, u1⟩ := handle_unseen s b
    obtain ⟨n2, e2, m2, u2⟩ := ih (handle s b)
    have hrun : handleAll s (b :: rest) = handleAll (handle s b) rest := rfl
    refine ⟨n1 ++ n2, ?_, ?_, ?_⟩
    · rw [hrun, e2]
      have e1b : (handle s b).events = s.events ++ n1 := e1
      rw [e1b, List.append_assoc]
    · intro h hh
      rw [hrun]
      exact m2 h (m1 h hh)
    · intro e he
      rcases List.mem_append.1 he with h | h
      · exact u1 e h
      · exact unseen_mono _ _ m1 e (u2 e h)

/-- C4, as stated, fails for block-contained `tx` events: `T1` is marked seen by a
mempool batch, and a later block batch whose block contains `T1` emits `tx(T1)`. -/
theorem dedup_invariant_counterexample :
    "T1" ∈ (handleAll start [Batch.mempool [{ hash := "T1" }]])._emitted ∧
    newEvents (handleAll start [Batch.mempool [{ hash := "T1" }]])
      [Batch.blocks [{ hash := "B1", tx := [{ hash := "T1" }] }]]
      = [Emitted.block { hash := "B1", tx := [{ hash := "T1" }] },
         Emitted.tx { hash := "T1" }] := by
  decide

/-- C4, amended: for every sequence of poll batches, block and mempool, overlapping
or not, once an identifier is in the seen-set it stays there, and no later `block`
event and no later `mptx` event carries it; the `tx` events of a block pass are not
subject to the check. -/
theorem dedup_invariant (s : Node) (batches : List Batch) (h : Hash) (hseen : h ∈ s._emitted) :
    h ∈ (handleAll s batches)._emitted ∧
    (∀ b, Emitted.block b ∈ newEvents s batches → b.hash ≠ h) ∧
    (∀ t, Emitted.mptx t ∈ newEvents s batches → t.hash ≠ h) := by
  obtain ⟨new, e1, m1, u1⟩ := handleAll_unseen batches s
  have hnew : newEvents s batches = new := by
    simp [newEvents, e1]
  rw [hnew]
  refine ⟨m1 h hseen, ?_, ?_⟩
  · intro b hb heq
    exact u1 _ hb (heq ▸ hseen)
  · intro t ht heq
    exact u1 _ ht (heq ▸ hseen)

/-- C4 witness: `B1` was emitted by a first batch; a second batch returns it again
together with `B2`. -/
theorem dedup_invariant_witness :
    "B1" ∈ (handleAll start [Batch.blocks [{ hash := "B1", tx := [] }]])._emitted ∧
    (∀ b, Emitted.block b ∈ newEvents (handleAll start [Batch.blocks [{ hash := "B1", tx := [] }]])
        [Batch.blocks [{ hash := "B1", tx := [] }, { hash := "B2", tx := [] }]] →
      b.hash ≠ "B1") :=
  ⟨by decide,
   (dedup_invariant (handleAll start [Batch.blocks [{ hash := "B1", tx := [] }]])
      [Batch.blocks [{ hash := "B1", tx := [] }, { hash := "B2", tx := [] }]] "B1"
      (by decide)).2.1⟩

/-! ## Poll loops: activation -/

theorem pollBlocks_fields (s : Node) :
    (_pollBlocks s)._pollingBlocks = true ∧
    (_pollBlocks s)._pollingMempool = s._pollingMempool ∧
    (_pollBlocks s).calls = s.calls ++ (if s._pollingBlocks then [] else [Loop.blocks]) := by
  unfold _pollBlocks
  by_cases h : s._pollingBlocks = true <;> simp [h, pollNext]

theorem pollMempool_fields (s : Node) :
    (_pollMempool s)._pollingMempool = true ∧
    (_pollMempool s)._pollingBlocks = s._pollingBlocks ∧
    (_pollMempool s).calls = s.calls ++ (if s._pollingMempool then [] else [Loop.mempool]) := by
  unfold _pollMempool
  by_cases h : s._pollingMempool = true <;> simp [h, pollNext]

theorem newListener_fields (s : Node) (name : String) :
    (newListener s name)._pollingBlocks
      = (s._pollingBlocks || decide (name = "block" ∨ name = "tx")) ∧
    (newListener s name)._pollingMempool
      = (s._pollingMempool || decide (name = "mptx" ∨ name = "tx")) ∧
    (newListener s name).calls = s.calls
      ++ (if !s._pollingBlocks && decide (name = "block" ∨ name = "tx") then [Loop.blocks] else [])
      ++ (if !s._pollingMempool && decide (name = "mptx" ∨ name = "tx")
          then [Loop.mempool] else []) := by
  obtain ⟨b1, b2, b3⟩ := pollBlocks_fields s
  obtain ⟨m1, m2, m3⟩ := pollMempool_fields s
  obtain ⟨n1, n2, n3⟩ := pollMempool_fields (_pollBlocks s)
  unfold newListener
  by_cases h1 : name = "block"
  · subst h1
    simp only [if_true, b1, b2, b3]
    cases hb : s._pollingBlocks <;> simp
  · by_cases h2 : name = "tx"
    · subst h2
      simp only [h1, if_false, if_true, n1, n2, n3, b1, b2, b3]
      cases hb : s._pollingBlocks <;> cases hm : s._pollingMempool <;> simp
    · by_cases h3 : name = "mptx"
      · subst h3
        simp only [h1, h2, if_false, if_true, m1, m2, m3]
        cases hm : s._pollingMempool <;> simp
      · simp [h1, h2, h3]

theorem subscriptions_fields (names : List String) :
    (names.foldl newListener start)._pollingBlocks
      = names.any (fun n => decide (n = "block" ∨ n = "tx")) ∧
    (names.foldl newListener start)._pollingMempool
      = names.any (fun n => decide (n = "mptx" ∨ n = "tx")) ∧
    (names.foldl newListener start).calls.count Loop.blocks
      = (if names.any (fun n => decide (n = "block" ∨ n = "tx")) then 1 else 0) ∧
    (names.foldl newListener start).calls.count Loop.mempool
      = (if names.any (fun n => decide (n = "mptx" ∨ n = "tx")) then 1 else 0) := by
  induction names using List.reverseRecOn with
  | nil => simp [start]
  | append_singleton names n ih =>
    obtain ⟨i1, i2, i3, i4⟩ := ih
    obtain ⟨f1, f2, f3⟩ := newListener_fields (names.foldl newListener start) n
    simp only [List.foldl_append, List.foldl_cons, List.foldl_nil, List.any_append,
      List.any_cons, List.any_nil, Bool.or_false]
    rw [f1, f2, f3, i1, i2]
    refine ⟨rfl, rfl, ?_, ?_⟩
    · simp only [List.count_append, i3]
      cases ha : names.any (fun n => decide (n = "block" ∨ n = "tx")) <;>
        cases hb : decide (n = "block" ∨ n = "tx") <;>
        cases hc : (!names.any (fun n => decide (n = "mptx" ∨ n = "tx")) &&
          decide (n = "mptx" ∨ n = "tx")) <;> simp
    · simp only [List.count_append, i4]
      cases ha : names.any (fun n => decide (n = "mptx" ∨ n = "tx")) <;>
        cases hb : decide (n = "mptx" ∨ n = "tx") <;>
        cases hc : (!names.any (fun n => decide (n = "block" ∨ n = "tx")) &&
          decide (n = "block" ∨ n = "tx")) <;> simp

theorem iterate_pollBlocks (n : Nat) (s : Node) :
    (_pollBlocks^[n + 1] s) = _pollBlocks s := by
  induction n with
  | zero => rfl
  | succ n ih =>
    rw [Function.iterate_succ_apply', ih]
    have b1 := (pollBlocks_fields s).1
    generalize _pollBlocks s = t at b1 ⊢
    simp [_pollBlocks, b1]

theorem iterate_pollMempool (n : Nat) (s : Node) :
    (_pollMempool^[n + 1] s) = _pollMempool s := by
  induction n with
  | zero => rfl
  | succ n ih =>
    rw [Function.iterate_succ_apply', ih]
    have b1 := (pollMempool_fields s).1
    generalize _pollMempool s = t at b1 ⊢
    simp [_pollMempool, b1]

/-- C9: for every finite sequence of event-name subscriptions on a started instance,
the block poll loop issues its initial poll call exactly once if some subscribed name
is `block` or `tx` and never otherwise, the mempool poll loop issues its initial poll
call exactly once if some subscribed name is `mptx` or `tx` and never otherwise, and
calling `_pollBlocks` or `_pollMempool` any positive number of times issues exactly one
poll call for that loop. -/
theorem lazy_idempotent_activation (names : List String) (n : Nat) :
    (names.foldl newListener start).calls.count Loop.blocks
      = (if names.any (fun name => decide (name = "block" ∨ name = "tx")) then 1 else 0) ∧
    (names.foldl newListener start).calls.count Loop.mempool
      = (if names.any (fun name => decide (name = "mptx" ∨ name = "tx")) then 1 else 0) ∧
    (_pollBlocks^[n + 1] start).calls = [Loop.blocks] ∧
    (_pollMempool^[n + 1] start).calls = [Loop.mempool] ∧
    (_pollBlocks^[n + 1] start).inflight = [Loop.blocks] ∧
    (_pollMempool^[n + 1] start).inflight = [Loop.mempool] := by
  obtain ⟨-, -, h3, h4⟩ := subscriptions_fields names
  refine ⟨h3, h4, ?_, ?_, ?_, ?_⟩
  · rw [iterate_pollBlocks]; rfl
  · rw [iterate_pollMempool]; rfl
  · rw [iterate_pollBlocks]; rfl
  · rw [iterate_pollMempool]; rfl

/-! ## Poll loops: rescheduling -/

theorem countP_set_int (p : Counter → Bool) (l : List Counter) (i : Nat) (k a : Counter)
    (h : l[i]? = some k) :
    ((l.set i a).countP p : Int)
      = (l.countP p : Int) - (if p k then 1 else 0) + (if p a then 1 else 0) := by
  induction l generalizing i with
  | nil => simp at h
  | cons x xs ih =>
    cases i with
    | zero =>
      simp only [List.getElem?_cons_zero, Option.some.injEq] at h
      subst h
      simp only [List.set_cons_zero, List.countP_cons]
      push_cast
      cases p x <;> cases p a <;> simp
    | succ j =>
      simp only [List.getElem?_cons_succ] at h
      simp only [List.set_cons_succ, List.countP_cons]
      push_cast
      rw [ih j h]
      omega

theorem pend_push (s : Node) (k : Counter) (i : Nat) :
    pend { s with counters := s.counters ++ [k] } i
      = pend s i + (if i = s.counters.length then k.pending else 0) := by
  unfold pend
  simp only
  rcases Nat.lt_trichotomy i s.counters.length with h | h | h
  · rw [List.getElem?_append_left h]
    have : i ≠ s.counters.length := Nat.ne_of_lt h
    simp [this]
  · subst h
    simp
  · have h1 : s.counters[i]? = none := List.getElem?_eq_none (Nat.le_of_lt h)
    have h2 : (s.counters ++ [k])[i]? = none :=
      List.getElem?_eq_none (by simp; omega)
    have : i ≠ s.counters.length := Nat.ne_of_gt h
    simp [h1, h2, this]

theorem deficit_push (s : Node) (k : Counter) (i : Nat) :
    deficit { s with counters := s.counters ++ [k] } i
      = deficit s i + (if i = s.counters.length then k.pending else 0)
        - (if k.signals i then 1 else 0) := by
  unfold deficit
  rw [pend_push]
  unfold credit
  simp only [List.countP_append, List.countP_cons, List.countP_nil]
  push_cast
  cases k.signals i <;> simp <;> omega

theorem deficit_setImmediate (s : Node) (c i : Nat) :
    deficit (setImmediate s c) i = deficit s i - (if c = i then 1 else 0) := by
  unfold deficit credit pend setImmediate
  simp only [List.count_append, List.count_cons, List.count_nil]
  push_cast
  by_cases h : c = i
  · subst h; simp; omega
  · simp [h]

theorem deficit_emit (s : Node) (e : Emitted) (i : Nat) : deficit (emit s e) i = deficit s i := rfl

theorem deficit_setTimeout (s : Node) (l : Loop) (i : Nat) :
    deficit (setTimeout s l) i = deficit s i := rfl

theorem Frame_refl (s : Node) : Frame s s :=
  ⟨Nat.le_refl _, rfl, rfl, rfl, rfl, fun _ h => Or.inl h, fun _ k h => ⟨k, h, rfl⟩⟩

theorem Frame_trans {s s1 s2 : Node} (h1 : Frame s s1) (h2 : Frame s1 s2) : Frame s s2 := by
  obtain ⟨a1, a2, a3, a4, a5, a6, a7⟩ := h1
  obtain ⟨b1, b2, b3, b4, b5, b6, b7⟩ := h2
  refine ⟨Nat.le_trans a1 b1, b2.trans a2, b3.trans a3, b4.trans a4, b5.trans a5, ?_, ?_⟩
  · intro t ht
    rcases b6 t ht with h | h
    · exact a6 t h
    · exact Or.inr (h.trans a5)
  · intro i k hk
    obtain ⟨k1, hk1, hd1⟩ := a7 i k hk
    obtain ⟨k2, hk2, hd2⟩ := b7 i k1 hk1
    exact ⟨k2, hk2, hd2.trans hd1⟩

theorem scheduled_setImmediate (s : Node) (c : Nat) (l : Loop) :
    scheduled (setImmediate s c) l = scheduled s l := rfl

theorem scheduled_setTimeout (s : Node) (l l2 : Loop) :
    scheduled (setTimeout s l) l2 = scheduled s l2 + (if l = l2 then 1 else 0) := by
  unfold scheduled timersOf outstanding setTimeout
  simp only [List.filter_append, List.length_append]
  by_cases h : l = l2
  · subst h; simp; omega
  · simp [h]

theorem Eff_runDone (s : Node) (d : Done) : Eff s (runDone s d) d := by
  cases d with
  | reschedule l =>
    refine ⟨?_, ?_, ?_, ?_, List.prefix_refl _⟩
    · intro i; simp [runDone, deficit_setTimeout]
    · intro l2; simp [runDone, scheduled_setTimeout]
    · intro h _; exact h
    · refine ⟨Nat.le_refl _, rfl, rfl, rfl, rfl, ?_, fun _ k h => ⟨k, h, rfl⟩⟩
      intro t ht
      simp only [runDone, setTimeout, List.mem_append, List.mem_singleton] at ht
      rcases ht with h | h
      · exact Or.inl h
      · exact Or.inr (by rw [h])
  | signal c =>
    refine ⟨?_, ?_, ?_, ?_, List.prefix_refl _⟩
    · intro i; simp [runDone, deficit_setImmediate]
    · intro l2; simp [runDone, scheduled_setImmediate]
    · intro h _; exact h
    · exact ⟨Nat.le_refl _, rfl, rfl, rfl, rfl, fun _ h => Or.inl h, fun _ k h => ⟨k, h, rfl⟩⟩

theorem Eff_of_emit {s s2 : Node} {d : Done} (e : Emitted) (h : Eff (emit s e) s2 d) :
    Eff s s2 d := h

theorem Eff_of_mark {s s2 : Node} {d : Done} (x : Hash)
    (h : Eff { s with _emitted := x :: s._emitted } s2 d) : Eff s s2 d := h

theorem scheduled_push (s : Node) (k : Counter) (l : Loop) :
    scheduled { s with counters := s.counters ++ [k] } l
      = scheduled s l + (if k.reschedules l then 1 else 0) := by
  unfold scheduled outstanding timersOf
  simp only [List.countP_append, List.countP_cons, List.countP_nil]
  cases k.reschedules l <;> simp
  omega

theorem Ordered_push (s : Node) (k : Counter) (ho : Ordered s)
    (hk : ∀ c, k.done = Done.signal c → c < s.counters.length) :
    Ordered { s with counters := s.counters ++ [k] } := by
  intro i k2 c hi hd
  simp only at hi
  rcases Nat.lt_trichotomy i s.counters.length with h | h | h
  · rw [List.getElem?_append_left h] at hi
    exact ho i k2 c hi hd
  · subst h
    simp only [List.getElem?_concat_length, Option.some.injEq] at hi
    subst hi
    exact hk c hd
  · rw [List.getElem?_eq_none (by simp; omega)] at hi
    exact absurd hi (by simp)

theorem Frame_push (s : Node) (k : Counter) :
    Frame s { s with counters := s.counters ++ [k] } := by
  refine ⟨by simp, rfl, rfl, rfl, rfl, fun _ h => Or.inl h, ?_⟩
  intro i k1 hk1
  have hlt : i < s.counters.length := by
    by_contra hge
    rw [List.getElem?_eq_none (by omega)] at hk1
    exact absurd hk1 (by simp)
  exact ⟨k1, by simp only; rw [List.getElem?_append_left hlt]; exact hk1, rfl⟩

theorem foldl_iter_Eff {α : Type} (iter : Node → α → Nat → Node)
    (hiter : ∀ s x c, Eff s (iter s x c) (Done.signal c)) (c : Nat) (obj : List α) (s : Node) :
    (∀ i, deficit (obj.foldl (fun acc item => iter acc item c) s) i
      = deficit s i - (if c = i then (obj.length : Int) else 0)) ∧
    (∀ l, scheduled (obj.foldl (fun acc item => iter acc item c) s) l = scheduled s l) ∧
    (Ordered s → c < s.counters.length →
      Ordered (obj.foldl (fun acc item => iter acc item c) s)) ∧
    Frame s (obj.foldl (fun acc item => iter acc item c) s) ∧
    s.counters <+: (obj.foldl (fun acc item => iter acc item c) s).counters := by
  induction obj generalizing s with
  | nil => exact ⟨by simp, by simp, fun h _ => h, Frame_refl s, List.prefix_refl _⟩
  | cons x xs ih =>
    obtain ⟨e1, e2, e3, e4, e5⟩ := hiter s x c
    obtain ⟨i1, i2, i3, i4, i5⟩ := ih (iter s x c)
    simp only [List.foldl_cons]
    refine ⟨?_, ?_, ?_, Frame_trans e4 i4, List.IsPrefix.trans e5 i5⟩
    · intro i
      rw [i1 i, e1 i]
      simp only [Done.signal.injEq, List.length_cons]
      push_cast
      by_cases h : c = i <;> simp [h]
      omega
    · intro l
      rw [i2 l, e2 l]; simp
    · intro ho hc
      have ho1 := e3 ho (fun c2 h2 => by cases h2; exact hc)
      exact i3 ho1 (Nat.lt_of_lt_of_le hc e4.1)

theorem forEach_Eff {α : Type} (iter : Node → α → Nat → Node)
    (hiter : ∀ s x c, Eff s (iter s x c) (Done.signal c)) (s : Node) (obj : List α)
    (done : Done) : Eff s (forEach s obj iter done) done := by
  unfold forEach
  by_cases h : obj.length = 0
  · simp only [h, if_true]
    exact Eff_runDone s done
  · simp only [h, if_false]
    have hpos : (0 : Int) < (obj.length : Int) := by
      have : 0 < obj.length := Nat.pos_of_ne_zero h
      exact_mod_cast this
    obtain ⟨i1, i2, i3, i4, i5⟩ := foldl_iter_Eff iter hiter s.counters.length obj
      { s with counters := s.counters ++ [{ pending := obj.length, done := done }] }
    refine ⟨?_, ?_, ?_, Frame_trans (Frame_push s _) i4,
      List.IsPrefix.trans (List.prefix_append _ _) i5⟩
    · intro i
      rw [i1 i, deficit_push]
      simp only [Counter.signals, hpos, decide_True, Bool.and_true, decide_eq_true_eq]
      by_cases hc : s.counters.length = i
      · simp only [hc, if_true]
        omega
      · have hc2 : ¬ i = s.counters.length := fun h => hc h.symm
        simp [hc, hc2]
    · intro l
      rw [i2 l, scheduled_push]
      simp [Counter.reschedules, hpos]
    · intro ho hd
      exact i3 (Ordered_push s _ ho hd) (by simp)

theorem txIter_Eff (s : Node) (t : Tx) (c : Nat) : Eff s (txIter s t c) (Done.signal c) :=
  Eff_of_emit (Emitted.tx t) (Eff_runDone (emit s (Emitted.tx t)) (Done.signal c))

theorem blockIter_Eff (s : Node) (b : Block) (c : Nat) :
    Eff s (blockIter s b c) (Done.signal c) := by
  unfold blockIter
  by_cases h : hasKey s._emitted b.hash = true
  · rw [if_pos h]
    exact Eff_runDone s (Done.signal c)
  · rw [if_neg h]
    exact Eff_of_mark b.hash (Eff_of_emit (Emitted.block b)
      (forEach_Eff txIter txIter_Eff _ b.tx (Done.signal c)))

theorem mempoolIter_Eff (s : Node) (t : Tx) (c : Nat) :
    Eff s (mempoolIter s t c) (Done.signal c) := by
  unfold mempoolIter
  by_cases h : hasKey s._emitted t.hash = true
  · rw [if_pos h]
    exact Eff_runDone s (Done.signal c)
  · rw [if_neg h]
    exact Eff_of_mark t.hash (Eff_of_emit (Emitted.mptx t) (Eff_of_emit (Emitted.tx t)
      (Eff_runDone _ (Done.signal c))))

theorem pollBlocksCallback_Eff (s : Node) (r : Except String (List Block)) :
    Eff s (pollBlocksCallback s r) (Done.reschedule Loop.blocks) := by
  cases r with
  | error e => exact Eff_runDone s (Done.reschedule Loop.blocks)
  | ok bs => exact forEach_Eff blockIter blockIter_Eff s bs _

theorem pollMempoolCallback_Eff (s : Node) (r : Except String (List Tx)) :
    Eff s (pollMempoolCallback s r) (Done.reschedule Loop.mempool) := by
  cases r with
  | error e => exact Eff_runDone s (Done.reschedule Loop.mempool)
  | ok ts => exact forEach_Eff mempoolIter mempoolIter_Eff s ts _

theorem pend_set (t : Node) (x : Nat) (k a : Counter) (hk : t.counters[x]? = some k) (i : Nat) :
    pend { t with counters := t.counters.set x a } i
      = if i = x then a.pending else pend t i := by
  have hlt : x < t.counters.length := by
    by_contra hge
    rw [List.getElem?_eq_none (by omega)] at hk
    exact absurd hk (by simp)
  unfold pend
  simp only [List.getElem?_set]
  by_cases h : x = i
  · subst h; simp [hlt]
  · have h2 : ¬ i = x := fun h3 => h h3.symm
    simp [h, h2]

theorem deficit_set (t : Node) (x : Nat) (k a : Counter) (hk : t.counters[x]? = some k)
    (i : Nat) :
    deficit { t with counters := t.counters.set x a } i
      = deficit t i + (if i = x then a.pending - k.pending else 0)
        + (if k.signals i then 1 else 0) - (if a.signals i then 1 else 0) := by
  unfold deficit
  rw [pend_set t x k a hk]
  unfold credit
  simp only
  rw [countP_set_int _ _ x k a hk]
  by_cases h : i = x
  · subst h
    have : pend t i = k.pending := by simp [pend, hk]
    simp only [if_true, this]
    omega
  · simp only [h, if_false]
    omega

theorem scheduled_set (t : Node) (x : Nat) (k a : Counter) (hk : t.counters[x]? = some k)
    (l : Loop) :
    (scheduled { t with counters := t.counters.set x a } l : Int)
      = (scheduled t l : Int) - (if k.reschedules l then 1 else 0)
        + (if a.reschedules l then 1 else 0) := by
  unfold scheduled outstanding timersOf
  simp only
  push_cast
  rw [countP_set_int _ _ x k a hk]
  omega

theorem workLeft_set (t : Node) (x : Nat) (k a : Counter) (hk : t.counters[x]? = some k) :
    (workLeft { t with counters := t.counters.set x a } : Int)
      = (workLeft t : Int) - (if k.nested then 1 else 0) + (if a.nested then 1 else 0) := by
  unfold workLeft
  simp only
  push_cast
  rw [countP_set_int _ _ x k a hk]
  omega

theorem Ordered_set (t : Node) (x : Nat) (k a : Counter) (hk : t.counters[x]? = some k)
    (hd : a.done = k.done) (ho : Ordered t) :
    Ordered { t with counters := t.counters.set x a } := by
  intro i k2 c hi hc
  simp only [List.getElem?_set] at hi
  by_cases h : x = i
  · subst h
    by_cases hlt : x < t.counters.length
    · simp only [if_true, hlt, Option.some.injEq] at hi
      subst hi
      exact ho x k c hk (hd ▸ hc)
    · simp [hlt] at hi
  · simp only [h, if_false] at hi
    exact ho i k2 c hi hc

theorem Frame_set (t : Node) (x : Nat) (k a : Counter) (hk : t.counters[x]? = some k)
    (hd : a.done = k.done) : Frame t { t with counters := t.counters.set x a } := by
  refine ⟨by simp, rfl, rfl, rfl, rfl, fun _ h => Or.inl h, ?_⟩
  intro i k1 hk1
  simp only [List.getElem?_set]
  by_cases h : x = i
  · subst h
    have hlt : x < t.counters.length := by
      by_contra hge
      rw [List.getElem?_eq_none (by omega)] at hk
      exact absurd hk (by simp)
    rw [hk] at hk1
    cases hk1
    exact ⟨a, by simp [hlt], hd⟩
  · exact ⟨k1, by simp [h, hk1], rfl⟩

theorem workLeft_runDone (t : Node) (d : Done) :
    workLeft (runDone t d) = workLeft t + (match d with
      | Done.signal _ => 1
      | Done.reschedule _ => 0) := by
  cases d with
  | reschedule l => rfl
  | signal c =>
    simp only [runDone, setImmediate, workLeft, List.length_append, List.length_singleton]
    omega

/-- One `next` call on an existing activation: the activation has one call less to
wait for, and nothing else changes in the bookkeeping. -/
theorem next_spec (t : Node) (x : Nat) (k : Counter) (hk : t.counters[x]? = some k) :
    (∀ i, deficit (next t x) i = deficit t i - (if i = x then 1 else 0)) ∧
    (∀ l, scheduled (next t x) l = scheduled t l) ∧
    (Ordered t → Ordered (next t x)) ∧
    Frame t (next t x) ∧
    workLeft (next t x) = workLeft t ∧
    view (next t x) = view t := by
  obtain ⟨a, ha⟩ : ∃ a : Counter, a = { k with pending := k.pending - 1 } := ⟨_, rfl⟩
  have ha1 : a.pending = k.pending - 1 := by rw [ha]
  have ha2 : a.done = k.done := by rw [ha]
  obtain ⟨t1, ht1⟩ : ∃ t1 : Node, t1 = { t with counters := t.counters.set x a } := ⟨_, rfl⟩
  have hnext : next t x = if k.pending - 1 = 0 then runDone t1 k.done else t1 := by
    simp [next, hk, ha, ht1]
  rw [hnext]
  have hdef : ∀ i, deficit t1 i = deficit t i + (if i = x then a.pending - k.pending else 0)
      + (if k.signals i then 1 else 0) - (if a.signals i then 1 else 0) := by
    rw [ht1]; exact deficit_set t x k a hk
  have hsch : ∀ l, (scheduled t1 l : Int) = (scheduled t l : Int)
      - (if k.reschedules l then 1 else 0) + (if a.reschedules l then 1 else 0) := by
    rw [ht1]; exact scheduled_set t x k a hk
  have hwl : (workLeft t1 : Int) = (workLeft t : Int) - (if k.nested then 1 else 0)
      + (if a.nested then 1 else 0) := by
    rw [ht1]; exact workLeft_set t x k a hk
  have hord : Ordered t → Ordered t1 := by
    rw [ht1]; exact Ordered_set t x k a hk ha2
  have hfr : Frame t t1 := by
    rw [ht1]; exact Frame_set t x k a hk ha2
  have hlen : t1.counters.length = t.counters.length := by
    rw [ht1]; simp
  have hview : view t1 = view t := by
    rw [ht1]; rfl
  by_cases hp : k.pending - 1 = 0
  · have hp1 : k.pending = 1 := by omega
    rw [if_pos hp]
    obtain ⟨e1, e2, e3, e4, -⟩ := Eff_runDone t1 k.done
    refine ⟨?_, ?_, ?_, Frame_trans hfr e4, ?_, ?_⟩
    · intro i
      rw [e1 i, hdef i]
      simp only [Counter.signals, ha1, ha2, hp1]
      by_cases hi : i = x <;> by_cases hd : k.done = Done.signal i <;>
        (simp [hi, hd]; try omega)
    · intro l
      have h2 := hsch l
      have h3 := e2 l
      simp only [Counter.reschedules, ha1, ha2, hp1] at h2
      by_cases hd : k.done = Done.reschedule l
      · rw [if_pos hd] at h3
        rw [if_pos (by simp [hd]), if_neg (by simp)] at h2
        omega
      · rw [if_neg hd] at h3
        rw [if_neg (by simp [hd]), if_neg (by simp)] at h2
        omega
    · intro ho
      refine e3 (hord ho) ?_
      intro c hc
      have hlt : x < t.counters.length := by
        by_contra hge
        rw [List.getElem?_eq_none (by omega)] at hk
        exact absurd hk (by simp)
      have := ho x k c hk hc
      omega
    · rw [workLeft_runDone]
      simp only [Counter.nested, ha1, ha2, hp1] at hwl
      cases hd : k.done with
      | reschedule l => simp [hd] at hwl ⊢; omega
      | signal c => simp [hd] at hwl ⊢; omega
    · rw [view_runDone]; exact hview
  · rw [if_neg hp]
    refine ⟨?_, ?_, hord, hfr, ?_, hview⟩
    · intro i
      rw [hdef i]
      simp only [Counter.signals, ha1, ha2]
      by_cases hi : i = x <;> by_cases hd : k.done = Done.signal i <;>
        by_cases h0 : 0 < k.pending <;> by_cases h1 : 0 < k.pending - 1 <;>
        simp [hi, hd, h0, h1] <;> omega
    · intro l
      have h2 := hsch l
      simp only [Counter.reschedules, ha1, ha2] at h2
      by_cases hd : k.done = Done.reschedule l <;>
        by_cases h0 : 0 < k.pending <;> by_cases h1 : 0 < k.pending - 1 <;>
        simp [hd, h0, h1] at h2 <;> omega
    · simp only [Counter.nested, ha1, ha2] at hwl
      by_cases h0 : 0 < k.pending <;> by_cases h1 : 0 < k.pending - 1 <;>
        cases hd : k.done <;> simp [hd, h0, h1] at hwl <;> omega

theorem polling_of_Frame {s s2 : Node} (h : Frame s s2) (l : Loop) : polling s2 l = polling s l := by
  cases l with
  | blocks => exact h.2.2.1
  | mempool => exact h.2.2.2.1

theorem Inv_start : Inv start := by
  refine ⟨?_, ?_, ?_⟩
  · intro i; simp [deficit, pend, credit, start]
  · intro i k c h; simp [start] at h
  · intro l; cases l <;> simp [start, scheduled, outstanding, timersOf, polling]

theorem Inv_pollNext (s : Node) (l : Loop) (h : Inv s) (hflag : polling s l = false) (s2 : Node)
    (hc : s2.counters = s.counters) (hi : s2.immediates = s.immediates)
    (ht : s2.timers = s.timers)
    (hf : s2.inflight = s.inflight ++ [l])
    (hpol : ∀ l2, polling s2 l2 = (polling s l2 || decide (l2 = l))) : Inv s2 := by
  obtain ⟨b, o, sg⟩ := h
  have hdef : ∀ i, deficit s2 i = deficit s i := by
    intro i; simp [deficit, pend, credit, hc, hi]
  have hsch : ∀ l2, scheduled s2 l2 = scheduled s l2 := by
    intro l2; simp [scheduled, outstanding, timersOf, hc, ht]
  refine ⟨fun i => (hdef i).trans (b i), ?_, ?_⟩
  · intro i k c hk hd
    rw [hc] at hk
    exact o i k c hk hd
  · intro l2
    rw [hsch, hf, hpol, List.count_append]
    have h2 := sg l2
    by_cases hl : l2 = l
    · subst hl
      rw [hflag] at h2
      simp at h2 ⊢
      omega
    · have hl2 : ¬ l = l2 := fun h3 => hl h3.symm
      simp [hl, hl2]
      simpa using h2

theorem Inv_pollBlocks (s : Node) (h : Inv s) : Inv (_pollBlocks s) := by
  unfold _pollBlocks
  by_cases hf : s._pollingBlocks = true
  · simp [hf, h]
  · simp only [hf, if_false]
    refine Inv_pollNext s Loop.blocks h (by simpa [polling] using hf) _ rfl rfl rfl rfl ?_
    intro l2
    cases l2 <;> simp [polling, pollNext]

theorem Inv_pollMempool (s : Node) (h : Inv s) : Inv (_pollMempool s) := by
  unfold _pollMempool
  by_cases hf : s._pollingMempool = true
  · simp [hf, h]
  · simp only [hf, if_false]
    refine Inv_pollNext s Loop.mempool h (by simpa [polling] using hf) _ rfl rfl rfl rfl ?_
    intro l2
    cases l2 <;> simp [polling, pollNext]

theorem Inv_newListener (s : Node) (name : String) (h : Inv s) : Inv (newListener s name) := by
  unfold newListener
  split
  · exact Inv_pollBlocks s h
  · split
    · exact Inv_pollMempool _ (Inv_pollBlocks s h)
    · split
      · exact Inv_pollMempool s h
      · exact h

/-- A poll callback run for a call in flight keeps the invariant: the call in flight
is traded for a batch in progress or a pending timer. -/
theorem Inv_callback (s s2 : Node) (l : Loop) (h : Inv s) (hfl : l ∈ s.inflight)
    (he : Eff { s with inflight := s.inflight.erase l } s2 (Done.reschedule l)) : Inv s2 := by
  obtain ⟨b, o, sg⟩ := h
  obtain ⟨e1, e2, e3, e4, -⟩ := he
  obtain ⟨f1, f2, f3, f4, f5, f6, f7⟩ := e4
  refine ⟨?_, ?_, ?_⟩
  · intro i
    rw [e1 i]
    have : deficit { s with inflight := s.inflight.erase l } i = deficit s i := rfl
    rw [this, b i]
    simp
  · exact e3 o (fun c hc => by cases hc)
  · intro l2
    rw [e2 l2, f2]
    have hsch : scheduled { s with inflight := s.inflight.erase l } l2 = scheduled s l2 := rfl
    have hpol : polling s2 l2 = polling s l2 := by
      cases l2 with
      | blocks => exact f3
      | mempool => exact f4
    rw [hsch, hpol]
    have h2 := sg l2
    simp only
    by_cases hl : l2 = l
    · subst hl
      rw [List.count_erase_self]
      have hpos : 0 < s.inflight.count l2 := List.count_pos_iff.2 hfl
      simp
      omega
    · have hl2 : ¬ l = l2 := fun h3 => hl h3.symm
      rw [List.count_erase_of_ne hl]
      simp [hl2]
      exact h2

theorem counter_of_queued (s : Node) (x : Nat) (rest : List Nat) (hb : deficit s x = 0)
    (hq : s.immediates = x :: rest) : ∃ k, s.counters[x]? = some k := by
  cases hk : s.counters[x]? with
  | some k => exact ⟨k, rfl⟩
  | none =>
    exfalso
    have hp : pend s x = 0 := by simp [pend, hk]
    have hc : (1 : Int) ≤ credit s x := by
      unfold credit
      rw [hq]
      simp only [List.count_cons_self]
      push_cast
      omega
    unfold deficit at hb
    omega

theorem Inv_immediate (s : Node) (h : Inv s) : Inv (step s Step.immediate) := by
  cases hq : s.immediates with
  | nil => simpa [step, hq] using h
  | cons x rest =>
    have hstep : step s Step.immediate = next { s with immediates := rest } x := by
      simp [step, hq]
    rw [hstep]
    obtain ⟨b, o, sg⟩ := h
    obtain ⟨k, hk⟩ := counter_of_queued s x rest (b x) hq
    obtain ⟨n1, n2, n3, n4, -, -⟩ := next_spec { s with immediates := rest } x k hk
    obtain ⟨f1, f2, f3, f4, f5, f6, f7⟩ := n4
    refine ⟨?_, n3 o, ?_⟩
    · intro i
      rw [n1 i]
      have hd : deficit { s with immediates := rest } i = deficit s i + (if i = x then 1 else 0) := by
        unfold deficit credit pend
        simp only [hq, List.count_cons]
        push_cast
        by_cases hi : i = x
        · subst hi; simp; omega
        · have hi2 : ¬ x = i := fun h3 => hi h3.symm
          simp [hi, hi2]
      rw [hd, b i]
      by_cases hi : i = x <;> simp [hi]
    · intro l
      rw [n2 l, f2]
      have hpol : polling (next { s with immediates := rest } x) l = polling s l := by
        cases l with
        | blocks => exact f3
        | mempool => exact f4
      rw [hpol]
      exact sg l

theorem timersOf_dropTimer (l l2 : Loop) (ts : List (Nat × Loop)) :
    ((dropTimer l ts).filter (fun t => decide (t.2 = l2))).length
      = (ts.filter (fun t => decide (t.2 = l2))).length
        - (if l = l2 ∧ ts.filter (fun t => decide (t.2 = l)) ≠ [] then 1 else 0) := by
  induction ts with
  | nil => simp [dropTimer]
  | cons t ts ih =>
    unfold dropTimer
    by_cases ht : t.2 = l
    · simp only [ht, if_true]
      by_cases hl : l = l2
      · subst hl
        simp [List.filter_cons, ht]
      · simp [List.filter_cons, ht, hl]
    · simp only [ht, if_false]
      by_cases hl : l = l2
      · subst hl
        simp only [List.filter_cons, ht, decide_False, Bool.false_eq_true, if_false, ih]
      · simp only [List.filter_cons]
        by_cases h2 : t.2 = l2
        · simp [h2, ih, hl]
        · simp [h2, ih, hl]

theorem mem_of_mem_dropTimer (l : Loop) (ts : List (Nat × Loop)) (t : Nat × Loop)
    (h : t ∈ dropTimer l ts) : t ∈ ts := by
  induction ts with
  | nil => simp [dropTimer] at h
  | cons u us ih =>
    unfold dropTimer at h
    by_cases hu : u.2 = l
    · simp only [hu, if_true] at h
      exact List.mem_cons_of_mem _ h
    · simp only [hu, if_false, List.mem_cons] at h
      rcases h with h | h
      · exact h ▸ List.mem_cons_self _ _
      · exact List.mem_cons_of_mem _ (ih h)

theorem Inv_timeout (s : Node) (l : Loop) (h : Inv s) : Inv (step s (Step.timeout l)) := by
  by_cases hne : s.timers.filter (fun t => decide (t.2 = l)) ≠ []
  · have hstep : step s (Step.timeout l)
        = pollNext { s with timers := dropTimer l s.timers } l := by
      simp only [step]
      rw [if_pos hne]
    rw [hstep]
    obtain ⟨b, o, sg⟩ := h
    refine ⟨fun i => b i, o, ?_⟩
    · intro l2
      have h2 := sg l2
      have hd := timersOf_dropTimer l l2 s.timers
      have hpol : polling (pollNext { s with timers := dropTimer l s.timers } l) l2
          = polling s l2 := by cases l2 <;> rfl
      have hsch : scheduled (pollNext { s with timers := dropTimer l s.timers } l) l2
          = outstanding s l2 + ((dropTimer l s.timers).filter (fun t => decide (t.2 = l2))).length :=
        rfl
      have hin : (pollNext { s with timers := dropTimer l s.timers } l).inflight.count l2
          = s.inflight.count l2 + (if l = l2 then 1 else 0) := by
        simp only [pollNext, List.count_append, List.count_cons, List.count_nil]
        by_cases hl : l = l2 <;> simp [hl]
      have hs0 : scheduled s l2
          = outstanding s l2 + (s.timers.filter (fun t => decide (t.2 = l2))).length := rfl
      rw [hpol, hsch, hin, hd, ← h2, hs0]
      by_cases hl : l = l2
      · subst hl
        have hpos : 0 < (s.timers.filter (fun t => decide (t.2 = l))).length :=
          List.length_pos.2 hne
        rw [if_pos rfl, if_pos ⟨rfl, hne⟩]
        omega
      · rw [if_neg hl, if_neg (fun h3 => hl h3.1)]
        omega
  · have hstep : step s (Step.timeout l) = s := by
      simp only [step]
      rw [if_neg hne]
    rw [hstep]
    exact h

theorem Inv_step (s : Node) (st : Step) (h : Inv s) : Inv (step s st) := by
  cases st with
  | subscribe name => exact Inv_newListener s name h
  | blocksPolled r =>
    by_cases hfl : Loop.blocks ∈ s.inflight
    · have hstep : step s (Step.blocksPolled r)
          = pollBlocksCallback { s with inflight := s.inflight.erase Loop.blocks } r := by
        simp [step, hfl]
      rw [hstep]
      exact Inv_callback s _ Loop.blocks h hfl (pollBlocksCallback_Eff _ r)
    · simpa [step, hfl] using h
  | mempoolPolled r =>
    by_cases hfl : Loop.mempool ∈ s.inflight
    · have hstep : step s (Step.mempoolPolled r)
          = pollMempoolCallback { s with inflight := s.inflight.erase Loop.mempool } r := by
        simp [step, hfl]
      rw [hstep]
      exact Inv_callback s _ Loop.mempool h hfl (pollMempoolCallback_Eff _ r)
    · simpa [step, hfl] using h
  | immediate => exact Inv_immediate s h
  | timeout l => exact Inv_timeout s l h
  | assign n => exact ⟨h.balanced, h.ordered, h.single⟩

theorem Inv_run (steps : List Step) (s : Node) (h : Inv s) : Inv (run s steps) := by
  induction steps generalizing s with
  | nil => exact h
  | cons st rest ih => exact ih (step s st) (Inv_step s st h)

/-- With an empty `setImmediate` queue no activation is waiting for anything. -/
theorem pend_zero_of_quiescent (s : Node) (h : Inv s) (hq : s.immediates = []) (n i : Nat)
    (hn : s.counters.length ≤ i + n) : pend s i = 0 := by
  induction n generalizing i with
  | zero =>
    have : s.counters[i]? = none := List.getElem?_eq_none (by omega)
    simp [pend, this]
  | succ n ih =>
    have hb := h.balanced i
    unfold deficit credit at hb
    rw [hq] at hb
    have hz : s.counters.countP (fun k => k.signals i) = 0 := by
      rw [List.countP_eq_zero]
      intro k hk hsig
      obtain ⟨j, hj⟩ := List.getElem?_of_mem hk
      simp only [Counter.signals, Bool.and_eq_true, decide_eq_true_eq] at hsig
      have hlt : i < j := h.ordered j k i hj hsig.1
      have hp := ih j (by omega)
      simp only [pend, hj] at hp
      omega
    rw [hz] at hb
    simp at hb
    omega

theorem outstanding_zero_of_quiescent (s : Node) (h : Inv s) (hq : s.immediates = [])
    (l : Loop) : outstanding s l = 0 := by
  unfold outstanding
  rw [List.countP_eq_zero]
  intro k hk hres
  obtain ⟨j, hj⟩ := List.getElem?_of_mem hk
  simp only [Counter.reschedules, Bool.and_eq_true, decide_eq_true_eq] at hres
  have hp := pend_zero_of_quiescent s h hq s.counters.length j (by omega)
  simp only [pend, hj] at hp
  omega

theorem Frame_next (t : Node) (x : Nat) : Frame t (next t x) ∧ view (next t x) = view t ∧
    workLeft (next t x) = workLeft t := by
  cases hk : t.counters[x]? with
  | none =>
    have : next t x = t := by simp [next, hk]
    rw [this]
    exact ⟨Frame_refl t, rfl, rfl⟩
  | some k =>
    obtain ⟨-, -, -, n4, n5, n6⟩ := next_spec t x k hk
    exact ⟨n4, n6, n5⟩

theorem view_callback_blocks (s : Node) (r : Except String (List Block)) :
    (view s).2 <+: (view (pollBlocksCallback s r)).2 := by
  cases r with
  | error e => exact List.prefix_refl _
  | ok bs =>
    obtain ⟨new, h1, -, -⟩ := handle_unseen s (Batch.blocks bs)
    exact ⟨new, h1.symm⟩

theorem view_callback_mempool (s : Node) (r : Except String (List Tx)) :
    (view s).2 <+: (view (pollMempoolCallback s r)).2 := by
  cases r with
  | error e => exact List.prefix_refl _
  | ok ts =>
    obtain ⟨new, h1, -, -⟩ := handle_unseen s (Batch.mempool ts)
    exact ⟨new, h1.symm⟩

theorem Grows_refl (s : Node) : Grows s s :=
  ⟨fun _ k h => ⟨k, h, rfl⟩, List.prefix_refl _⟩

theorem Grows_trans {s s1 s2 : Node} (h1 : Grows s s1) (h2 : Grows s1 s2) : Grows s s2 := by
  refine ⟨?_, List.IsPrefix.trans h1.2 h2.2⟩
  intro i k hk
  obtain ⟨k1, hk1, hd1⟩ := h1.1 i k hk
  obtain ⟨k2, hk2, hd2⟩ := h2.1 i k1 hk1
  exact ⟨k2, hk2, hd2.trans hd1⟩

/-- Per step: activations keep their `done`, the event log only grows, and unless the
step fires a timer of loop `l`, loop `l` stays active with no poll call in flight once
it is in that situation. -/
theorem step_grows (s : Node) (st : Step) :
    Grows s (step s st) ∧
    ∀ l, st ≠ Step.timeout l → polling s l = true → s.inflight.count l = 0 →
      polling (step s st) l = true ∧ (step s st).inflight.count l = 0 := by
  have hpb : ∀ (t : Node), Grows t (_pollBlocks t) ∧
      ∀ l, polling t l = true → t.inflight.count l = 0 →
        polling (_pollBlocks t) l = true ∧ (_pollBlocks t).inflight.count l = 0 := by
    intro t
    unfold _pollBlocks
    by_cases hf : t._pollingBlocks = true
    · rw [if_pos hf]
      exact ⟨Grows_refl t, fun l h1 h2 => ⟨h1, h2⟩⟩
    · rw [if_neg hf]
      refine ⟨⟨fun _ k h => ⟨k, h, rfl⟩, List.prefix_refl _⟩, ?_⟩
      intro l h1 h2
      cases l with
      | blocks => exact absurd h1 hf
      | mempool =>
        refine ⟨h1, ?_⟩
        simp only [pollNext, List.count_append]
        rw [h2]
        simp
  have hpm : ∀ (t : Node), Grows t (_pollMempool t) ∧
      ∀ l, polling t l = true → t.inflight.count l = 0 →
        polling (_pollMempool t) l = true ∧ (_pollMempool t).inflight.count l = 0 := by
    intro t
    unfold _pollMempool
    by_cases hf : t._pollingMempool = true
    · rw [if_pos hf]
      exact ⟨Grows_refl t, fun l h1 h2 => ⟨h1, h2⟩⟩
    · rw [if_neg hf]
      refine ⟨⟨fun _ k h => ⟨k, h, rfl⟩, List.prefix_refl _⟩, ?_⟩
      intro l h1 h2
      cases l with
      | mempool => exact absurd h1 hf
      | blocks =>
        refine ⟨h1, ?_⟩
        simp only [pollNext, List.count_append]
        rw [h2]
        simp
  have hcb : ∀ (l0 : Loop) (s2 : Node),
      Frame { s with inflight := s.inflight.erase l0 } s2 → s.events <+: s2.events →
      Grows s s2 ∧ ∀ l, polling s l = true → s.inflight.count l = 0 →
        polling s2 l = true ∧ s2.inflight.count l = 0 := by
    intro l0 s2 hfr hev
    refine ⟨⟨hfr.2.2.2.2.2.2, hev⟩, ?_⟩
    intro l h1 h2
    refine ⟨(polling_of_Frame hfr l).trans h1, ?_⟩
    rw [hfr.2.1]
    have := (List.erase_sublist l0 s.inflight).count_le l
    simp only at this ⊢
    omega
  cases st with
  | subscribe name =>
    have hnl : Grows s (newListener s name) ∧
        ∀ l, polling s l = true → s.inflight.count l = 0 →
          polling (newListener s name) l = true ∧ (newListener s name).inflight.count l = 0 := by
      unfold newListener
      split
      · exact hpb s
      · split
        · obtain ⟨g1, j1⟩ := hpb s
          obtain ⟨g2, j2⟩ := hpm (_pollBlocks s)
          exact ⟨Grows_trans g1 g2, fun l h1 h2 => j2 l (j1 l h1 h2).1 (j1 l h1 h2).2⟩
        · split
          · exact hpm s
          · exact ⟨Grows_refl s, fun l h1 h2 => ⟨h1, h2⟩⟩
    exact ⟨hnl.1, fun l _ => hnl.2 l⟩
  | blocksPolled r =>
    by_cases hfl : Loop.blocks ∈ s.inflight
    · have hstep : step s (Step.blocksPolled r)
          = pollBlocksCallback { s with inflight := s.inflight.erase Loop.blocks } r := by
        simp [step, hfl]
      rw [hstep]
      obtain ⟨g, j⟩ := hcb Loop.blocks _ (pollBlocksCallback_Eff _ r).2.2.2.1
        (view_callback_blocks { s with inflight := s.inflight.erase Loop.blocks } r)
      exact ⟨g, fun l _ => j l⟩
    · have hstep : step s (Step.blocksPolled r) = s := by simp [step, hfl]
      rw [hstep]
      exact ⟨Grows_refl s, fun l _ h1 h2 => ⟨h1, h2⟩⟩
  | mempoolPolled r =>
    by_cases hfl : Loop.mempool ∈ s.inflight
    · have hstep : step s (Step.mempoolPolled r)
          = pollMempoolCallback { s with inflight := s.inflight.erase Loop.mempool } r := by
        simp [step, hfl]
      rw [hstep]
      obtain ⟨g, j⟩ := hcb Loop.mempool _ (pollMempoolCallback_Eff _ r).2.2.2.1
        (view_callback_mempool { s with inflight := s.inflight.erase Loop.mempool } r)
      exact ⟨g, fun l _ => j l⟩
    · have hstep : step s (Step.mempoolPolled r) = s := by simp [step, hfl]
      rw [hstep]
      exact ⟨Grows_refl s, fun l _ h1 h2 => ⟨h1, h2⟩⟩
  | immediate =>
    cases hq : s.immediates with
    | nil =>
      have hstep : step s Step.immediate = s := by simp [step, hq]
      rw [hstep]
      exact ⟨Grows_refl s, fun l _ h1 h2 => ⟨h1, h2⟩⟩
    | cons x rest =>
      have hstep : step s Step.immediate = next { s with immediates := rest } x := by
        simp [step, hq]
      rw [hstep]
      obtain ⟨hfr, hv, -⟩ := Frame_next { s with immediates := rest } x
      have hev : s.events = (next { s with immediates := rest } x).events :=
        (congrArg Prod.snd hv).symm
      refine ⟨⟨hfr.2.2.2.2.2.2, by rw [← hev]⟩, ?_⟩
      intro l _ h1 h2
      refine ⟨(polling_of_Frame hfr l).trans h1, ?_⟩
      rw [hfr.2.1]
      exact h2
  | timeout l0 =>
    by_cases hne : s.timers.filter (fun t => decide (t.2 = l0)) ≠ []
    · have hstep : step s (Step.timeout l0)
          = pollNext { s with timers := dropTimer l0 s.timers } l0 := by
        simp only [step]
        rw [if_pos hne]
      rw [hstep]
      refine ⟨⟨fun _ k h => ⟨k, h, rfl⟩, List.prefix_refl _⟩, ?_⟩
      intro l hl h1 h2
      have hl2 : ¬ l0 = l := fun h3 => hl (by rw [h3])
      refine ⟨by cases l <;> exact h1, ?_⟩
      simp only [pollNext, List.count_append, List.count_cons, List.count_nil]
      rw [h2]
      simp [hl2]
    · have hstep : step s (Step.timeout l0) = s := by
        simp only [step]
        rw [if_neg hne]
      rw [hstep]
      exact ⟨Grows_refl s, fun l _ h1 h2 => ⟨h1, h2⟩⟩
  | assign n =>
    exact ⟨⟨fun _ k h => ⟨k, h, rfl⟩, List.prefix_refl _⟩,
      fun l _ h1 h2 => ⟨by cases l <;> exact h1, h2⟩⟩

theorem run_grows (more : List Step) (s : Node) (l : Loop)
    (hmore : ∀ st ∈ more, st ≠ Step.timeout l) (h1 : polling s l = true)
    (h2 : s.inflight.count l = 0) :
    Grows s (run s more) ∧ polling (run s more) l = true ∧ (run s more).inflight.count l = 0 := by
  induction more generalizing s with
  | nil => exact ⟨Grows_refl s, h1, h2⟩
  | cons st rest ih =>
    obtain ⟨g, j⟩ := step_grows s st
    obtain ⟨j1, j2⟩ := j l (hmore st (List.mem_cons_self _ _)) h1 h2
    obtain ⟨g2, k1, k2⟩ := ih (step s st) (fun st2 h => hmore st2 (List.mem_cons_of_mem _ h)) j1 j2
    exact ⟨Grows_trans g g2, k1, k2⟩

theorem workLeft_immediate (s : Node) (x : Nat) (rest : List Nat) (hq : s.immediates = x :: rest) :
    workLeft (step s Step.immediate) + 1 = workLeft s := by
  have hstep : step s Step.immediate = next { s with immediates := rest } x := by
    simp [step, hq]
  rw [hstep, (Frame_next { s with immediates := rest } x).2.2]
  simp [workLeft, hq]
  omega

theorem drain_succ (n : Nat) (s : Node) : drain (n + 1) s = drain n (step s Step.immediate) := by
  simp [drain, run, List.replicate_succ]

theorem drain_quiescent (n : Nat) (s : Node) (hq : s.immediates = []) : drain n s = s := by
  induction n with
  | zero => rfl
  | succ n ih =>
    rw [drain_succ]
    have : step s Step.immediate = s := by simp [step, hq]
    rw [this, ih]

/-- The `setImmediate` queue is empty after at most `workLeft s` turns. -/
theorem drain_terminates (n : Nat) (s : Node) (hn : workLeft s ≤ n) :
    (drain n s).immediates = [] := by
  induction n generalizing s with
  | zero =>
    have : s.immediates.length = 0 := by
      unfold workLeft at hn
      omega
    exact List.length_eq_zero.1 this
  | succ n ih =>
    cases hq : s.immediates with
    | nil => rw [drain_quiescent _ _ hq, hq]
    | cons x rest =>
      rw [drain_succ]
      apply ih
      have := workLeft_immediate s x rest hq
      omega

theorem forEach_counter {α : Type} (iter : Node → α → Nat → Node)
    (hiter : ∀ s x c, Eff s (iter s x c) (Done.signal c)) (s : Node) (obj : List α)
    (done : Done) (h : obj.length ≠ 0) :
    (forEach s obj iter done).counters[s.counters.length]?
      = some { pending := obj.length, done := done } := by
  unfold forEach
  simp only [h, if_false]
  obtain ⟨-, -, -, -, ⟨t, ht⟩⟩ := foldl_iter_Eff iter hiter s.counters.length obj
    { s with counters := s.counters ++ [{ pending := obj.length, done := done }] }
  rw [← ht]
  simp only
  rw [List.append_assoc, List.getElem?_append_right (Nat.le_refl _)]
  simp

theorem foldl_view_events {α : Type} (key : α → Hash) (ev : α → List Emitted)
    (g : List Hash × List Emitted → α → List Hash × List Emitted)
    (hg : ∀ v x, g v x = if hasKey v.1 (key x) then v else (key x :: v.1, v.2 ++ ev x))
    (xs : List α) (v : List Hash × List Emitted) :
    (xs.foldl g v).2 = v.2 ++ (fresh key v.1 xs).flatMap ev ∧
    ∀ h, hasKey (xs.foldl g v).1 h = (hasKey v.1 h || decide (h ∈ xs.map key)) := by
  induction xs using List.reverseRecOn with
  | nil => simp [fresh, removeSeenEarlier_nil]
  | append_singleton xs x ih =>
    obtain ⟨e, k⟩ := ih
    rw [List.foldl_append]
    simp only [List.foldl_cons, List.foldl_nil]
    rw [hg]
    have hfresh : fresh key v.1 (xs ++ [x]) = fresh key v.1 xs
        ++ (if key x ∈ xs.map key then [] else [x]).filter (fun y => !hasKey v.1 (key y)) := by
      simp only [fresh, removeSeenEarlier_concat, List.filter_append]
    rw [hfresh]
    by_cases hx : hasKey (xs.foldl g v).1 (key x) = true
    · rw [if_pos hx]
      have hx2 := hx
      rw [k (key x)] at hx2
      have hnil : (if key x ∈ xs.map key then [] else [x]).filter
          (fun y => !hasKey v.1 (key y)) = [] := by
        by_cases hm : key x ∈ xs.map key
        · simp [hm]
        · have : hasKey v.1 (key x) = true := by simpa [hm] using hx2
          simp [hm, this]
      refine ⟨by rw [hnil, e]; simp, ?_⟩
      intro h
      rw [k h]
      by_cases hh : h = key x
      · subst hh
        rw [← k (key x), hx]
        simp
      · simp [hh]
    · rw [if_neg hx]
      have hx2 : ¬ (hasKey v.1 (key x) || decide (key x ∈ xs.map key)) = true := by
        rw [← k (key x)]; exact hx
      have hm : key x ∉ xs.map key := fun h => hx2 (by simp [h])
      have hv : hasKey v.1 (key x) = false := by
        cases hh : hasKey v.1 (key x) with
        | false => rfl
        | true => exact absurd (by simp [hh]) hx2
      have hone : (if key x ∈ xs.map key then [] else [x]).filter
          (fun y => !hasKey v.1 (key y)) = [x] := by
        simp [hm, hv]
      refine ⟨by rw [hone, e]; simp, ?_⟩
      intro h
      rw [hasKey_cons, k h]
      by_cases hh : h = key x
      · subst hh; simp
      · simp [hh]

theorem step_interval (s : Node) (st : Step) (hst : ∀ n, st ≠ Step.assign n) :
    (step s st).pollInterval = s.pollInterval ∧
    ∀ t ∈ (step s st).timers, t ∈ s.timers ∨ t.1 = s.pollInterval := by
  have hpb : ∀ t : Node, (_pollBlocks t).pollInterval = t.pollInterval ∧
      (_pollBlocks t).timers = t.timers := by
    intro t
    unfold _pollBlocks
    split <;> exact ⟨rfl, rfl⟩
  have hpm : ∀ t : Node, (_pollMempool t).pollInterval = t.pollInterval ∧
      (_pollMempool t).timers = t.timers := by
    intro t
    unfold _pollMempool
    split <;> exact ⟨rfl, rfl⟩
  cases st with
  | assign n => exact absurd rfl (hst n)
  | subscribe name =>
    have hnl : (newListener s name).pollInterval = s.pollInterval ∧
        (newListener s name).timers = s.timers := by
      unfold newListener
      split
      · exact hpb s
      · split
        · exact ⟨(hpm _).1.trans (hpb s).1, (hpm _).2.trans (hpb s).2⟩
        · split
          · exact hpm s
          · exact ⟨rfl, rfl⟩
    exact ⟨hnl.1, fun t ht => Or.inl (hnl.2 ▸ ht)⟩
  | blocksPolled r =>
    by_cases hfl : Loop.blocks ∈ s.inflight
    · have hstep : step s (Step.blocksPolled r)
          = pollBlocksCallback { s with inflight := s.inflight.erase Loop.blocks } r := by
        simp [step, hfl]
      rw [hstep]
      obtain ⟨-, -, -, -, f5, f6, -⟩ := (pollBlocksCallback_Eff
        { s with inflight := s.inflight.erase Loop.blocks } r).2.2.2.1
      exact ⟨f5, f6⟩
    · have hstep : step s (Step.blocksPolled r) = s := by simp [step, hfl]
      rw [hstep]
      exact ⟨rfl, fun t ht => Or.inl ht⟩
  | mempoolPolled r =>
    by_cases hfl : Loop.mempool ∈ s.inflight
    · have hstep : step s (Step.mempoolPolled r)
          = pollMempoolCallback { s with inflight := s.inflight.erase Loop.mempool } r := by
        simp [step, hfl]
      rw [hstep]
      obtain ⟨-, -, -, -, f5, f6, -⟩ := (pollMempoolCallback_Eff
        { s with inflight := s.inflight.erase Loop.mempool } r).2.2.2.1
      exact ⟨f5, f6⟩
    · have hstep : step s (Step.mempoolPolled r) = s := by simp [step, hfl]
      rw [hstep]
      exact ⟨rfl, fun t ht => Or.inl ht⟩
  | immediate =>
    cases hq : s.immediates with
    | nil =>
      have hstep : step s Step.immediate = s := by simp [step, hq]
      rw [hstep]
      exact ⟨rfl, fun t ht => Or.inl ht⟩
    | cons x rest =>
      have hstep : step s Step.immediate = next { s with immediates := rest } x := by
        simp [step, hq]
      rw [hstep]
      obtain ⟨-, -, -, -, f5, f6, -⟩ := (Frame_next { s with immediates := rest } x).1
      exact ⟨f5, f6⟩
  | timeout l0 =>
    by_cases hne : s.timers.filter (fun t => decide (t.2 = l0)) ≠ []
    · have hstep : step s (Step.timeout l0)
          = pollNext { s with timers := dropTimer l0 s.timers } l0 := by
        simp only [step]
        rw [if_pos hne]
      rw [hstep]
      exact ⟨rfl, fun t ht => Or.inl (mem_of_mem_dropTimer l0 s.timers t ht)⟩
    · have hstep : step s (Step.timeout l0) = s := by
        simp only [step]
        rw [if_neg hne]
      rw [hstep]
      exact ⟨rfl, fun t ht => Or.inl ht⟩

theorem run_interval (more : List Step) (s : Node)
    (hmore : ∀ st ∈ more, ∀ n, st ≠ Step.assign n) :
    (run s more).pollInterval = s.pollInterval ∧
    ∀ t ∈ (run s more).timers, t ∈ s.timers ∨ t.1 = s.pollInterval := by
  induction more generalizing s with
  | nil => exact ⟨rfl, fun t ht => Or.inl ht⟩
  | cons st rest ih =>
    obtain ⟨a1, a2⟩ := step_interval s st (hmore st (List.mem_cons_self _ _))
    obtain ⟨b1, b2⟩ := ih (step s st) (fun st2 h => hmore st2 (List.mem_cons_of_mem _ h))
    refine ⟨b1.trans a1, ?_⟩
    intro t ht
    rcases b2 t ht with h | h
    · exact a2 t h
    · exact Or.inr (h.trans a1)

/-- What a poll answer for a call in flight does: it runs the callback of its loop on
the state with that call removed; a truthy `err` only schedules the timer; a non-empty
batch creates the activation that counts its items; the events of every item that is
not skipped are appended to the log in order. -/
theorem step_answer (s : Node) (st : Step) (l : Loop) (hst : st.answers = some l)
    (hfl : l ∈ s.inflight) :
    Eff { s with inflight := s.inflight.erase l } (step s st) (Done.reschedule l) ∧
    (st.failed = true → step s st = setTimeout { s with inflight := s.inflight.erase l } l) ∧
    (st.batchSize ≠ 0 → (step s st).counters[s.counters.length]?
      = some { pending := st.batchSize, done := Done.reschedule l }) ∧
    (step s st).events = s.events ++ st.emits s._emitted := by
  cases st with
  | subscribe name => simp [Step.answers] at hst
  | immediate => simp [Step.answers] at hst
  | timeout l0 => simp [Step.answers] at hst
  | assign n => simp [Step.answers] at hst
  | blocksPolled r =>
    simp only [Step.answers, Option.some.injEq] at hst
    subst hst
    have hstep : step s (Step.blocksPolled r)
        = pollBlocksCallback { s with inflight := s.inflight.erase Loop.blocks } r := by
      simp [step, hfl]
    rw [hstep]
    refine ⟨pollBlocksCallback_Eff _ r, ?_, ?_, ?_⟩
    · intro hf
      cases r with
      | error e => rfl
      | ok bs => simp [Step.failed] at hf
    · intro hb
      cases r with
      | error e => simp [Step.batchSize] at hb
      | ok bs =>
        simp only [Step.batchSize] at hb ⊢
        exact forEach_counter blockIter blockIter_Eff
          { s with inflight := s.inflight.erase Loop.blocks } bs _ hb
    · cases r with
      | error e => simp [Step.emits, pollBlocksCallback, setTimeout]
      | ok bs =>
        have hv := view_handle { s with inflight := s.inflight.erase Loop.blocks }
          (Batch.blocks bs)
        have h2 := congrArg Prod.snd hv
        simp only [handle] at h2
        have h3 := (foldl_view_events Block.hash blockEvents viewBlock (fun _ _ => rfl) bs
          (view s)).1
        exact h2.trans h3
  | mempoolPolled r =>
    simp only [Step.answers, Option.some.injEq] at hst
    subst hst
    have hstep : step s (Step.mempoolPolled r)
        = pollMempoolCallback { s with inflight := s.inflight.erase Loop.mempool } r := by
      simp [step, hfl]
    rw [hstep]
    refine ⟨pollMempoolCallback_Eff _ r, ?_, ?_, ?_⟩
    · intro hf
      cases r with
      | error e => rfl
      | ok ts => simp [Step.failed] at hf
    · intro hb
      cases r with
      | error e => simp [Step.batchSize] at hb
      | ok ts =>
        simp only [Step.batchSize] at hb ⊢
        exact forEach_counter mempoolIter mempoolIter_Eff
          { s with inflight := s.inflight.erase Loop.mempool } ts _ hb
    · cases r with
      | error e => simp [Step.emits, pollMempoolCallback, setTimeout]
      | ok ts =>
        have hv := view_handle { s with inflight := s.inflight.erase Loop.mempool }
          (Batch.mempool ts)
        have h2 := congrArg Prod.snd hv
        simp only [handle] at h2
        have h3 := (foldl_view_events Tx.hash (fun t => [Emitted.mptx t, Emitted.tx t]) viewTx
          (fun _ _ => rfl) ts (view s)).1
        exact h2.trans h3

theorem timersOf_single (s : Node) (l : Loop) (d : Nat) (hlen : (timersOf s l).length = 1)
    (hall : ∀ t ∈ timersOf s l, t = (d, l)) : timersOf s l = [(d, l)] := by
  cases hts : timersOf s l with
  | nil => rw [hts] at hlen; simp at hlen
  | cons t rest =>
    rw [hts] at hlen hall
    have hrest : rest = [] := by
      apply List.length_eq_zero.1
      simp only [List.length_cons] at hlen
      omega
    subst hrest
    rw [hall t (List.mem_cons_self _ _)]

/-- C10: a poll call of either loop that is in flight is answered, after any run of a
started instance in which the host may have reassigned `pollInterval`.  Before the
answer no next poll of that loop is scheduled.  The callback appends to the log, in
order, the events of every item it does not skip, and nothing else.  On error no event
is emitted, the seen-set is unchanged and exactly one timer is added, with delay
`self.pollInterval`.  A non-empty batch creates an activation that counts its items
and the callback itself schedules nothing.  In every continuation in which that timer
has not fired yet: at most one next poll of the loop is scheduled; when it is
scheduled, no batch of the loop is still in progress and the activation counting the
items has reached zero; the log then starts with the earlier events followed by all
events of the batch; once the `setImmediate` queue is empty exactly one next poll is
scheduled; and unless the host reassigns the field meanwhile its delay is
`self.pollInterval`.  The queue does become empty: after finitely many turns exactly
one next poll is scheduled.  The interval is 300 unless the host reassigned it. -/
theorem single_rescheduling (pre : List Step) (st : Step) (l : Loop)
    (hst : st.answers = some l) (hfl : l ∈ (run start pre).inflight) :
    timersOf (run start pre) l = [] ∧
    (answered pre st).events
      = (run start pre).events ++ st.emits (run start pre)._emitted ∧
    (st.failed = true →
      (answered pre st).events = (run start pre).events ∧
      (answered pre st)._emitted = (run start pre)._emitted ∧
      (answered pre st).timers
        = (run start pre).timers ++ [((run start pre).pollInterval, l)]) ∧
    (st.batchSize ≠ 0 →
      pend (answered pre st) (run start pre).counters.length = st.batchSize ∧
      timersOf (answered pre st) l = []) ∧
    (∀ more : List Step, (∀ st2 ∈ more, st2 ≠ Step.timeout l) →
      (timersOf (run (answered pre st) more) l).length ≤ 1 ∧
      (timersOf (run (answered pre st) more) l ≠ [] →
        outstanding (run (answered pre st) more) l = 0 ∧
        (st.batchSize ≠ 0 →
          pend (run (answered pre st) more) (run start pre).counters.length = 0)) ∧
      ((run (answered pre st) more).immediates = [] →
        (timersOf (run (answered pre st) more) l).length = 1) ∧
      ((∀ st2 ∈ more, ∀ n, st2 ≠ Step.assign n) →
        ∀ t ∈ timersOf (run (answered pre st) more) l,
          t = ((run start pre).pollInterval, l)) ∧
      ((run start pre).events ++ st.emits (run start pre)._emitted)
        <+: (run (answered pre st) more).events) ∧
    (∃ N, ∀ n, N ≤ n → (drain n (answered pre st)).immediates = [] ∧
      timersOf (drain n (answered pre st)) l = [((run start pre).pollInterval, l)]) ∧
    ((∀ st2 ∈ pre, ∀ n, st2 ≠ Step.assign n) → (run start pre).pollInterval = 300) := by
  have hinv : Inv (run start pre) := Inv_run pre start Inv_start
  have hinv1 : Inv (answered pre st) := Inv_step _ st hinv
  obtain ⟨heff, hfail, hcnt, hev⟩ := step_answer (run start pre) st l hst hfl
  obtain ⟨-, -, -, hfr, -⟩ := heff
  have hev1 : (answered pre st).events
      = (run start pre).events ++ st.emits (run start pre)._emitted := hev
  -- before the answer
  have hpos : 0 < (run start pre).inflight.count l := List.count_pos_iff.2 hfl
  have hsingle := hinv.single l
  have hpol : polling (run start pre) l = true := by
    by_contra hp
    rw [if_neg hp] at hsingle
    omega
  rw [hpol, if_pos rfl] at hsingle
  have hcount : (run start pre).inflight.count l = 1 := by omega
  have hsched : scheduled (run start pre) l = 0 := by omega
  have htimers0 : timersOf (run start pre) l = [] := by
    apply List.length_eq_zero.1
    unfold scheduled at hsched
    omega
  -- right after the answer
  have hpol1 : polling (answered pre st) l = true := (polling_of_Frame hfr l).trans hpol
  have hfl1 : (answered pre st).inflight.count l = 0 := by
    have : (answered pre st).inflight = (run start pre).inflight.erase l := hfr.2.1
    rw [this, List.count_erase_self, hcount]
  have hint1 : (answered pre st).pollInterval = (run start pre).pollInterval :=
    hfr.2.2.2.2.1
  have htim1 : ∀ t ∈ timersOf (answered pre st) l, t = ((run start pre).pollInterval, l) := by
    intro t ht
    simp only [timersOf, List.mem_filter, decide_eq_true_eq] at ht
    rcases hfr.2.2.2.2.2.1 t ht.1 with h | h
    · exfalso
      have hin : t ∈ timersOf (run start pre) l := by
        simp only [timersOf, List.mem_filter, decide_eq_true_eq]
        exact ⟨h, ht.2⟩
      rw [htimers0] at hin
      exact absurd hin (List.not_mem_nil _)
    · exact Prod.ext h ht.2
  -- the general continuation
  have hmore : ∀ more : List Step, (∀ st2 ∈ more, st2 ≠ Step.timeout l) →
      (timersOf (run (answered pre st) more) l).length ≤ 1 ∧
      (timersOf (run (answered pre st) more) l ≠ [] →
        outstanding (run (answered pre st) more) l = 0 ∧
        (st.batchSize ≠ 0 →
          pend (run (answered pre st) more) (run start pre).counters.length = 0)) ∧
      ((run (answered pre st) more).immediates = [] →
        (timersOf (run (answered pre st) more) l).length = 1) ∧
      ((∀ st2 ∈ more, ∀ n, st2 ≠ Step.assign n) →
        ∀ t ∈ timersOf (run (answered pre st) more) l,
          t = ((run start pre).pollInterval, l)) ∧
      ((run start pre).events ++ st.emits (run start pre)._emitted)
        <+: (run (answered pre st) more).events := by
    intro more hm
    have hinv2 : Inv (run (answered pre st) more) := Inv_run more _ hinv1
    obtain ⟨hg, hp2, hf2⟩ := run_grows more (answered pre st) l hm hpol1 hfl1
    have hs2 := hinv2.single l
    rw [hp2, if_pos rfl, hf2] at hs2
    have hsum : outstanding (run (answered pre st) more) l
        + (timersOf (run (answered pre st) more) l).length = 1 := by
      unfold scheduled at hs2
      omega
    refine ⟨by omega, ?_, ?_, ?_, ?_⟩
    · intro hne
      have hlen : 0 < (timersOf (run (answered pre st) more) l).length := List.length_pos.2 hne
      have hout : outstanding (run (answered pre st) more) l = 0 := by omega
      refine ⟨hout, ?_⟩
      intro hb
      have hk : (answered pre st).counters[(run start pre).counters.length]?
          = some { pending := st.batchSize, done := Done.reschedule l } := hcnt hb
      obtain ⟨k2, hk2, hd2⟩ := hg.1 _ _ hk
      have hd3 : k2.done = Done.reschedule l := hd2
      have hbal := hinv2.balanced (run start pre).counters.length
      have hp : pend (run (answered pre st) more) (run start pre).counters.length = k2.pending := by
        simp [pend, hk2]
      have hnot : ¬ (0 < k2.pending) := by
        intro hlt
        have hz := List.countP_eq_zero.1 hout k2 (List.getElem?_mem hk2)
        apply hz
        simp only [Counter.reschedules, Bool.and_eq_true, decide_eq_true_eq]
        exact ⟨hd3, hlt⟩
      have hge : 0 ≤ credit (run (answered pre st) more) (run start pre).counters.length := by
        unfold credit
        omega
      unfold deficit at hbal
      omega
    · intro hq
      have hout := outstanding_zero_of_quiescent _ hinv2 hq l
      omega
    · intro hna t ht
      obtain ⟨r1, r2⟩ := run_interval more (answered pre st) hna
      simp only [timersOf, List.mem_filter, decide_eq_true_eq] at ht
      rcases r2 t ht.1 with h | h
      · exact htim1 t (by
          simp only [timersOf, List.mem_filter, decide_eq_true_eq]
          exact ⟨h, ht.2⟩)
      · exact Prod.ext (h.trans hint1) ht.2
    · rw [← hev1]
      exact hg.2
  refine ⟨htimers0, hev1, ?_, ?_, hmore, ?_, ?_⟩
  · intro hf
    have h1 : answered pre st
        = setTimeout { run start pre with inflight := (run start pre).inflight.erase l } l :=
      hfail hf
    rw [h1]
    exact ⟨rfl, rfl, rfl⟩
  · intro hb
    have hk : (answered pre st).counters[(run start pre).counters.length]?
        = some { pending := st.batchSize, done := Done.reschedule l } := hcnt hb
    have hp : pend (answered pre st) (run start pre).counters.length = st.batchSize := by
      simp [pend, hk]
    refine ⟨hp, ?_⟩
    by_contra hne
    have := ((hmore [] (by simp)).2.1 hne).2 hb
    have h0 : run (answered pre st) [] = answered pre st := rfl
    rw [h0, hp] at this
    have hb2 : (st.batchSize : Int) ≠ 0 := by exact_mod_cast hb
    exact hb2 this
  · refine ⟨workLeft (answered pre st), ?_⟩
    intro n hn
    have hq := drain_terminates n (answered pre st) hn
    refine ⟨hq, ?_⟩
    have hm : ∀ st2 ∈ List.replicate n Step.immediate, st2 ≠ Step.timeout l := by
      intro st2 h2
      rw [List.eq_of_mem_replicate h2]
      simp
    have hna : ∀ st2 ∈ List.replicate n Step.immediate, ∀ k, st2 ≠ Step.assign k := by
      intro st2 h2 k
      rw [List.eq_of_mem_replicate h2]
      simp
    obtain ⟨-, -, c3, c4, -⟩ := hmore (List.replicate n Step.immediate) hm
    exact timersOf_single _ l _ (c3 hq) (c4 hna)
  · intro hna
    exact (run_interval pre start hna).1

/-- C10 witness: after a subscription to `tx` and a reassignment of `pollInterval` to
500, the block poll call in flight is answered with the batch
`[B1(tx: T1, T2), B2(tx: T1)]`; the callback emits the five events of the batch and
schedules nothing, and the next block poll is scheduled, with delay 500, once the five
`setImmediate` callbacks of the batch have run. -/
theorem single_rescheduling_witness :
    (Step.blocksPolled (Except.ok
      [{ hash := "B1", tx := [{ hash := "T1" }, { hash := "T2" }] },
       { hash := "B2", tx := [{ hash := "T1" }] }])).answers = some Loop.blocks ∧
    Loop.blocks ∈ (run start [Step.subscribe "tx", Step.assign 500]).inflight ∧
    (answered [Step.subscribe "tx", Step.assign 500] (Step.blocksPolled (Except.ok
      [{ hash := "B1", tx := [{ hash := "T1" }, { hash := "T2" }] },
       { hash := "B2", tx := [{ hash := "T1" }] }]))).events
      = [Emitted.block { hash := "B1", tx := [{ hash := "T1" }, { hash := "T2" }] },
         Emitted.tx { hash := "T1" }, Emitted.tx { hash := "T2" },
         Emitted.block { hash := "B2", tx := [{ hash := "T1" }] },
         Emitted.tx { hash := "T1" }] ∧
    timersOf (drain 4 (answered [Step.subscribe "tx", Step.assign 500]
      (Step.blocksPolled (Except.ok
        [{ hash := "B1", tx := [{ hash := "T1" }, { hash := "T2" }] },
         { hash := "B2", tx := [{ hash := "T1" }] }])))) Loop.blocks = [] ∧
    timersOf (drain 5 (answered [Step.subscribe "tx", Step.assign 500]
      (Step.blocksPolled (Except.ok
        [{ hash := "B1", tx := [{ hash := "T1" }, { hash := "T2" }] },
         { hash := "B2", tx := [{ hash := "T1" }] }])))) Loop.blocks
      = [(500, Loop.blocks)] :=
  ⟨rfl, by decide,
   (single_rescheduling [Step.subscribe "tx", Step.assign 500] (Step.blocksPolled (Except.ok
      [{ hash := "B1", tx := [{ hash := "T1" }, { hash := "T2" }] },
       { hash := "B2", tx := [{ hash := "T1" }] }])) Loop.blocks rfl (by decide)).2.1.trans
     (by decide),
   by decide, by decide⟩

end Bitcoind
